import Mathlib

/-!
# A verification model of the `byos` commit log (`queue/commitlog.go`, `queue/logreader.go`)

Every definition in this file is a shallow embedding of the corresponding Go
function from the repository, translated statement by statement:

* bytes are `Nat` values `< 256`; files and buffers are `List Nat`;
* Go's `map[string]streamLog` is an insertion-ordered association list
  (the map itself is unordered; all observations the code makes of it —
  lookup, `len`, and the iteration in `finalize`, which sorts — are
  order-insensitive, so insertion order is a sound representation);
* machine integers are `Nat` with explicit `% 2^w` at the points where Go
  performs a narrowing conversion or where unsigned arithmetic can wrap
  (`uint16(len(...))`, `binary.LittleEndian.PutUintN`, `uint32(a-b)`,
  `int(a-b)` on `uint64` operands);
* `os.File` plus `bufio.Writer` is modelled as a byte list together with an
  optional remaining I/O budget: a `write` fails exactly when the budget is
  exceeded, which models a lower-layer I/O failure (disk full / write error);
  a budget of `none` is a writer that never fails;
* Go loops whose termination is not structural are written with an explicit
  fuel parameter and a distinguished out-of-fuel result, so that genuine
  non-termination of the source is expressible as `∀ fuel, ... = fuelOut`;
* Go `panic` (slice index out of range, and the `panic("Oooops")` in
  `readStream`) is a distinguished `panicked` result.
-/

namespace Byos

/-! ## Little-endian byte encodings (`encoding/binary`) -/

/-- `k` little-endian bytes of `x` (encodes `x % 256^k`), as
`binary.LittleEndian.PutUintN` does. -/
def leBytes : Nat → Nat → List Nat
  | 0, _ => []
  | k + 1, x => x % 256 :: leBytes k (x / 256)

/-- `binary.LittleEndian.PutUint16`. -/
def u16le (x : Nat) : List Nat := leBytes 2 x

/-- `binary.LittleEndian.PutUint32`. -/
def u32le (x : Nat) : List Nat := leBytes 4 x

/-- `binary.LittleEndian.PutUint64`. -/
def u64le (x : Nat) : List Nat := leBytes 8 x

/-- Little-endian value of a byte list (`binary.LittleEndian.UintN`). -/
def leVal : List Nat → Nat
  | [] => 0
  | b :: r => b + 256 * leVal r

/-- Reduce an integer into `[0, 2^64)` the way `uint64` arithmetic wraps. -/
def wrap64 (x : Int) : Nat := (x % (2 ^ 64 : Int)).toNat

/-- Reinterpret a `uint64` bit pattern as Go's `int` (64-bit two's complement). -/
def int64OfU64 (x : Nat) : Int :=
  if x < 2 ^ 63 then (x : Int) else (x : Int) - 2 ^ 64

/-- Go `int(a - b)` where `a b : uint64`: the subtraction wraps modulo `2^64`
and the result is reinterpreted as a signed 64-bit integer. -/
def goSub64 (a b : Nat) : Int := int64OfU64 (wrap64 ((a : Int) - (b : Int)))

/-- Go `a - b` where `a b : uint32`: wraps modulo `2^32`. -/
def sub32 (a b : Nat) : Nat := (a % 2 ^ 32 + (2 ^ 32 - b % 2 ^ 32)) % 2 ^ 32

/-! ## Byte-lexicographic order on names (Go `string` comparison) -/

/-- Go string `<`: lexicographic comparison of unsigned bytes, a proper
initial segment being smaller. -/
def lexLt : List Nat → List Nat → Bool
  | [], [] => false
  | [], _ :: _ => true
  | _ :: _, [] => false
  | a :: as, b :: bs => a < b || (a = b && lexLt as bs)

/-- Reflexive closure of `lexLt`; the order `sort.Strings` sorts by. -/
def nameLe (a b : List Nat) : Prop := lexLt a b = true ∨ a = b

instance : DecidableRel nameLe := fun a b => by
  unfold nameLe; infer_instance

instance nameLe_total : IsTotal (List Nat) nameLe where
  total a b := by
    induction a generalizing b with
    | nil => cases b <;> simp [nameLe, lexLt]
    | cons x as ih =>
      cases b with
      | nil => simp [nameLe, lexLt]
      | cons y bs =>
        rcases Nat.lt_trichotomy x y with h | h | h
        · exact Or.inl (Or.inl (by simp [lexLt, h]))
        · subst h
          rcases ih bs with hab | hab
          · rcases hab with hab | hab
            · exact Or.inl (Or.inl (by simp [lexLt, hab]))
            · subst hab; exact Or.inl (Or.inr rfl)
          · rcases hab with hab | hab
            · exact Or.inr (Or.inl (by simp [lexLt, hab]))
            · subst hab; exact Or.inl (Or.inr rfl)
        · exact Or.inr (Or.inl (by simp [lexLt, h]))

theorem lexLt_trans : ∀ {a b c : List Nat},
    lexLt a b = true → lexLt b c = true → lexLt a c = true := by
  intro a
  induction a with
  | nil =>
    intro b c hab hbc
    cases b with
    | nil => simp [lexLt] at hab
    | cons y bs =>
      cases c with
      | nil => simp [lexLt] at hbc
      | cons z cs => simp [lexLt]
  | cons x as ih =>
    intro b c hab hbc
    cases b with
    | nil => simp [lexLt] at hab
    | cons y bs =>
      cases c with
      | nil => simp [lexLt] at hbc
      | cons z cs =>
        simp only [lexLt, Bool.or_eq_true, decide_eq_true_eq,
          Bool.and_eq_true] at hab hbc ⊢
        rcases hab with h1 | ⟨h1, h1'⟩ <;> rcases hbc with h2 | ⟨h2, h2'⟩
        · exact Or.inl (Nat.lt_trans h1 h2)
        · exact Or.inl (h2 ▸ h1)
        · exact Or.inl (h1 ▸ h2)
        · exact Or.inr ⟨h1.trans h2, ih h1' h2'⟩

theorem lexLt_irrefl : ∀ a : List Nat, lexLt a a = false := by
  intro a
  induction a with
  | nil => rfl
  | cons x as ih => simp [lexLt, ih]

instance nameLe_trans : IsTrans (List Nat) nameLe where
  trans a b c hab hbc := by
    rcases hab with hab | hab
    · rcases hbc with hbc | hbc
      · exact Or.inl (lexLt_trans hab hbc)
      · exact Or.inl (hbc ▸ hab)
    · exact hab ▸ hbc

/-- `sort.Strings` in `finalize`: sort names by byte-lexicographic order. -/
def sortNames (l : List (List Nat)) : List (List Nat) :=
  List.insertionSort nameLe l

/-! ## Data model (`commitlog.go` types) -/

/-- `streamLog`. -/
structure StreamLog where
  number : Nat
  firstFatIndex : Nat
  lastFatIndex : Nat
  offset : Nat
  keepOffset : Nat
  length : Nat
deriving Repr, DecidableEq, Inhabited

/-- `fatEntry`. -/
structure FatEntry where
  next : Nat
  pos : Nat
  length : Nat
deriving Repr, DecidableEq, Inhabited

/-- `writer` (`os.File` + `bufio.Writer`): the flushed file contents, plus an
optional byte budget after which lower-layer writes fail. -/
structure Writer where
  file : List Nat
  budget : Option Nat
deriving Repr, DecidableEq, Inhabited

/-- A single buffered write; fails (leaving the file unchanged) when the
budget is exceeded, modelling an I/O error surfacing from `bufio`/`os.File`. -/
def Writer.write (w : Writer) (bs : List Nat) : Writer × Bool :=
  match w.budget with
  | none => ({ w with file := w.file ++ bs }, true)
  | some m =>
    if bs.length ≤ m then
      ({ file := w.file ++ bs, budget := some (m - bs.length) }, true)
    else (w, false)

/-- `util.Span`. -/
structure Span where
  From : Nat
  To : Nat
deriving Repr, DecidableEq, Inhabited

/-- `commitLog`. -/
structure CommitLog where
  streams : List (List Nat × StreamLog)
  w : Writer
  size : Nat
  fat : List FatEntry
  finalized : Bool
deriving Repr, DecidableEq, Inhabited

/-- Error values surfaced by the Go code
(`os.ErrNotExist`, `os.ErrInvalid`, `errIsFinalized`, I/O errors,
`errors.New("Wrong index")`, and end-of-file during parsing). -/
inductive GoErr where
  | notExist
  | invalid
  | finalized
  | ioFail
  | badIndex
  | eof
deriving Repr, DecidableEq

/-- `newCommitLog()` followed by `create`: empty state, empty file, a writer
that never fails. -/
def freshLog : CommitLog :=
  { streams := [], w := { file := [], budget := none }, size := 0,
    fat := [], finalized := false }

/-- Go `c.streams[name]` (the lookup that reports presence). -/
def lookupStream (c : CommitLog) (name : List Nat) : Option StreamLog :=
  (c.streams.find? (fun p => p.1 = name)).map Prod.snd

/-- Go `c.streams[name] = s`: replace in place if present, else insert.
New names are appended, so list position equals assignment order. -/
def setStream : List (List Nat × StreamLog) → List Nat → StreamLog →
    List (List Nat × StreamLog)
  | [], n, s => [(n, s)]
  | (k, v) :: r, n, s =>
    if k = n then (n, s) :: r else (k, v) :: setStream r n s

/-- Go `c.fat[i] = f` (within bounds; out-of-range writes cannot occur in the
reachable states this file evaluates, and `List.set` is the identity there). -/
def setFat (fat : List FatEntry) (i : Nat) (e : FatEntry) : List FatEntry :=
  fat.set i e

/-! ## Action write path (`action.write`, `appendAction.write`,
`pollardAction.write`, `commitLog.commit`) -/

/-- `actionFlags` constants. -/
def flagEndOfRecord : Nat := 1
def flagWithName : Nat := 2
def flagMask : Nat := 0xfc
def flagAppend : Nat := 4
def flagPollard : Nat := 8
def flagDict : Nat := 12

/-- `action.write`: serialize the stream-reference sub-record and (for a new
name) insert the stream into the map. Returns the mutated log, the byte
count `n` the Go function reports, and whether every write succeeded. -/
def actionWrite (flags offset : Nat) (name : List Nat) (c : CommitLog) :
    CommitLog × Nat × Bool :=
  match lookupStream c name with
  | some s =>
    let bytes := flags % 256 :: u16le s.number
    let (w', ok) := c.w.write bytes
    ({ c with w := w' }, if ok then 3 else 0, ok)
  | none =>
    let index := c.streams.length % 2 ^ 16
    let c := { c with
      streams := setStream c.streams name
        ({ number := index, firstFatIndex := 0, lastFatIndex := 0,
           offset := offset, keepOffset := offset, length := 0 }) }
    let (w1, ok1) := c.w.write ((flags ||| flagWithName) % 256 :: u64le offset)
    if !ok1 then ({ c with w := w1 }, 0, false)
    else
      let (w2, ok2) := { c with w := w1 }.w.write name
      if !ok2 then ({ c with w := w2 }, 9, false)
      else
        let (w3, ok3) := { c with w := w2 }.w.write [0]
        if !ok3 then ({ c with w := w3 }, 9 + name.length, false)
        else ({ c with w := w3 }, 9 + name.length + 1, true)

/-- The FAT mutation shared textually by `appendAction.write` and
`appendAction.recover` (the Go source duplicates these lines verbatim):
extend the stream's chain with a fresh entry for `dataLen` bytes at file
position `pos`. -/
def fatExtend (c : CommitLog) (name : List Nat) (dataLen pos : Nat) :
    CommitLog :=
  let s := (lookupStream c name).getD default
  let l := c.fat.length % 2 ^ 16
  let s2 :=
    if s.length = 0 then { s with firstFatIndex := l, lastFatIndex := l }
    else { s with lastFatIndex := l }
  let fat2 :=
    if s.length = 0 then c.fat
    else setFat c.fat s.lastFatIndex
      { (c.fat.getD s.lastFatIndex default) with next := l }
  let s3 := { s2 with length := s2.length + dataLen }
  { c with streams := setStream c.streams name s3,
           fat := fat2 ++ [{ next := 0, pos := pos, length := dataLen }] }

/-- `appendAction.write`. -/
def appendActionWrite (flags offset : Nat) (name data : List Nat)
    (c : CommitLog) : CommitLog × Nat × Bool :=
  let (c1, n1, ok1) := actionWrite flags offset name c
  if !ok1 then (c1, n1, false)
  else
    let (w2, ok2) := c1.w.write (u32le data.length)
    let c2 := { c1 with w := w2 }
    if !ok2 then (c2, n1, false)
    else
      let n2 := n1 + 4
      let c3 := fatExtend c2 name data.length (c2.size + n2)
      let (w4, ok4) := c3.w.write data
      let c4 := { c3 with w := w4 }
      if !ok4 then (c4, n2, false)
      else (c4, n2 + data.length, true)

/-- `pollardAction.write`. -/
def pollardActionWrite (flags offset : Nat) (name : List Nat)
    (pollardPos : Nat) (c : CommitLog) : CommitLog × Nat × Bool :=
  let (c1, n1, ok1) := actionWrite flags offset name c
  if !ok1 then (c1, n1, false)
  else
    let (w2, ok2) := c1.w.write (u64le pollardPos)
    let c2 := { c1 with w := w2 }
    if !ok2 then (c2, n1, false)
    else
      let s := (lookupStream c2 name).getD default
      let c3 := { c2 with
        streams := setStream c2.streams name ({ s with keepOffset := pollardPos }) }
      (c3, n1 + 8, true)

/-- The two record kinds a caller commits (`frontend_test.go` always sets
`flags` to exactly `flagAppend` / `flagPollard`). -/
inductive Action where
  | app (name : List Nat) (offset : Nat) (data : List Nat)
  | pol (name : List Nat) (offset : Nat) (pollardPos : Nat)
deriving Repr, DecidableEq

/-- `commitLog.commit`: refuse when finalized, serialize, keep the mutated
state, and add the record length to `size` only on success. The Go code
ignores the error of the final `c.w.Sync()`. -/
def commit (c : CommitLog) (a : Action) : CommitLog × Option GoErr :=
  if c.finalized then (c, some .finalized)
  else
    let (c', n, ok) :=
      match a with
      | .app name offset data => appendActionWrite flagAppend offset name data c
      | .pol name offset p => pollardActionWrite flagPollard offset name p c
    if ok then ({ c' with size := c'.size + n }, none)
    else (c', some .ioFail)

/-- Fold a sequence of commits (discarding per-commit errors, as a caller
whose commits all succeed would observe). -/
def runCommits (c : CommitLog) (acts : List Action) : CommitLog :=
  acts.foldl (fun c a => (commit c a).1) c

/-- `commitLog.streamRange`. -/
def streamRange (c : CommitLog) (name : List Nat) : Except GoErr Span :=
  match lookupStream c name with
  | none => .error .notExist
  | some s => .ok { From := s.keepOffset, To := (s.offset + s.length) % 2 ^ 64 }

/-! ## `commitLog.readStream` -/

/-- Result of `readStream`: the returned `(n, err)` pair plus the bytes
placed in the caller's buffer; or a `panic`; or loop fuel exhaustion
(the model's name for a non-terminating source loop). -/
inductive ReadRes where
  | ret (n : Nat) (err : Option GoErr) (bytes : List Nat)
  | panicked
  | fuelOut
deriving Repr, DecidableEq

/-- `os.File.ReadAt` on the flushed file image: fails unless the whole
requested range lies inside the file. -/
def readAt (file : List Nat) (pos : Int) (count : Nat) : Option (List Nat) :=
  if 0 ≤ pos ∧ pos.toNat + count ≤ file.length then
    some ((file.drop pos.toNat).take count)
  else none

/-- Outcome of the extent-skipping loop in `readStream`. -/
inductive SkipRes where
  | found (findex foffset : Nat)
  | panicked
  | fuelOut
deriving Repr, DecidableEq

/-- The first loop of `readStream`: skip FAT extents wholly before `offset`.
Walks `findex`/`foffset`; panics (`"Oooops"`) at end of chain, and panics on
an out-of-range FAT index as Go's slice indexing would. -/
def rsSkip (fat : List FatEntry) (offset : Nat) :
    Nat → Nat → Nat → SkipRes
  | 0, _, _ => .fuelOut
  | fuel + 1, findex, foffset =>
    match fat.get? findex with
    | none => .panicked
    | some e =>
      if offset ≥ foffset + e.length then
        if e.next = 0 then .panicked
        else rsSkip fat offset fuel e.next (foffset + e.length)
      else .found findex foffset

/-- The second loop of `readStream`: positioned reads across successive FAT
extents until the buffer is filled. `posOffset` is Go's `int(offset-foffset)`
(a wrapping `uint64` difference reinterpreted as a signed integer). On a
`ReadAt` error the source returns `0, nil` — reporting success while
discarding the error — so the model returns `.ret 0 none` with a buffer that
was not fully filled. -/
def rsFill (file : List Nat) (fat : List FatEntry) :
    Nat → Nat → Nat → Nat → Nat → Nat → List Nat → ReadRes
  | 0, _, _, _, _, _, _ => .fuelOut
  | fuel + 1, findex, toRead, done, offset, foffset, acc =>
    if toRead = 0 then .ret done none acc
    else
      match fat.get? findex with
      | none => .panicked
      | some e =>
        let pos : Int := e.pos
        let posOffset : Int := goSub64 offset foffset
        let readCount : Int := min ((e.length : Int) - posOffset) (toRead : Int)
        if readCount < 0 then .panicked
        else
          match readAt file (pos + posOffset) readCount.toNat with
          | none => .ret 0 none acc
          | some bs =>
            rsFill file fat fuel e.next (toRead - readCount.toNat)
              (done + readCount.toNat) (offset + readCount.toNat)
              (foffset + e.length) (acc ++ bs)

/-- `commitLog.readStream`: reads `bufLen` bytes of stream `name` starting at
stream offset `offset`, through the FAT, with positioned reads against the
writer's file. The `uint64` sums in the range check are reduced modulo
`2^64` exactly where Go's additions wrap. -/
def readStream (c : CommitLog) (name : List Nat) (offset bufLen fuel : Nat) :
    ReadRes :=
  match lookupStream c name with
  | none => .ret 0 (some .notExist) []
  | some s =>
    if offset < s.keepOffset ∨
        (offset + bufLen) % 2 ^ 64 > (s.offset + s.length) % 2 ^ 64 then
      .ret 0 (some .invalid) []
    else
      match rsSkip c.fat offset fuel s.firstFatIndex s.offset with
      | .fuelOut => .fuelOut
      | .panicked => .panicked
      | .found findex foffset =>
        rsFill c.w.file c.fat fuel findex bufLen 0 offset foffset []

/-! ## Reader and record parsing (`reader`, `action.read`,
`appendAction.read`, `pollardAction.read`) -/

/-- `reader`: a buffered reader position (the bytes not yet consumed) plus
the `names` table of streams introduced so far. -/
structure RState where
  rest : List Nat
  names : List (List Nat)
deriving Repr, DecidableEq, Inhabited

/-- `reader.peekAction`: look at the next byte without consuming it. -/
def peekAction (r : RState) : Option Nat := r.rest.head?

/-- `io.ReadFull`: take exactly `n` bytes; on a short read Go consumes what
is available and reports an error. -/
def readFull (n : Nat) (l : List Nat) : Option (List Nat × List Nat) :=
  if n ≤ l.length then some (l.take n, l.drop n) else none

/-- `bufio.Reader.ReadString(0)`: the bytes up to and including the first
zero byte; errors at end of input when no zero byte occurs. -/
def readString0 : List Nat → Option (List Nat × List Nat)
  | [] => none
  | b :: r =>
    if b = 0 then some ([], r)
    else (readString0 r).map (fun p => (b :: p.1, p.2))

/-- `action.read`: parse the stream-reference sub-record, yielding
`(flags, offset, streamName)` and the advanced reader. A known stream is
recovered through the `names` table; the `offset` field stays `0` for it
(Go leaves the zero value in place). On failure the reader has consumed
whatever the failing primitive consumed. -/
def actionRead (r : RState) : Except RState ((Nat × Nat × List Nat) × RState) :=
  match r.rest with
  | [] => .error r
  | b :: rest1 =>
    if b &&& flagWithName = flagWithName then
      match readFull 8 rest1 with
      | none => .error { r with rest := [] }
      | some (obytes, rest2) =>
        match readString0 rest2 with
        | none => .error { r with rest := [] }
        | some (name, rest3) =>
          .ok ((b, leVal obytes, name),
            { rest := rest3, names := r.names ++ [name] })
    else
      match readFull 2 rest1 with
      | none => .error { r with rest := [] }
      | some (ibytes, rest2) =>
        let index := leVal ibytes
        if index ≥ r.names.length % 2 ^ 16 then
          .error { r with rest := rest2 }
        else
          .ok ((b, 0, r.names.getD index []), { r with rest := rest2 })

/-- `appendAction.read`: the sub-record, a `u32` data length, then the data. -/
def appendActionRead (r : RState) :
    Except RState ((Nat × Nat × List Nat × List Nat) × RState) :=
  match actionRead r with
  | .error r' => .error r'
  | .ok ((flags, offset, name), r1) =>
    match readFull 4 r1.rest with
    | none => .error { r1 with rest := [] }
    | some (lbytes, rest2) =>
      match readFull (leVal lbytes) rest2 with
      | none => .error { r1 with rest := [] }
      | some (data, rest3) =>
        .ok ((flags, offset, name, data), { r1 with rest := rest3 })

/-- `pollardAction.read`: the sub-record then a `u64` pollard position. -/
def pollardActionRead (r : RState) :
    Except RState ((Nat × Nat × List Nat × Nat) × RState) :=
  match actionRead r with
  | .error r' => .error r'
  | .ok ((flags, offset, name), r1) =>
    match readFull 8 r1.rest with
    | none => .error { r1 with rest := [] }
    | some (pbytes, rest2) =>
      .ok ((flags, offset, name, leVal pbytes), { r1 with rest := rest2 })

/-! ## Recovery (`action.recover`, `appendAction.recover`,
`pollardAction.recover`, `commitLog.recover`) -/

/-- `action.recover`: replay the stream-reference mutation without touching
the file, returning the byte count the on-disk sub-record occupied. -/
def actionRecover (offset : Nat) (name : List Nat) (c : CommitLog) :
    CommitLog × Nat :=
  match lookupStream c name with
  | some _ => (c, 3)
  | none =>
    let index := c.streams.length % 2 ^ 16
    let s : StreamLog :=
      { number := index, firstFatIndex := 0, lastFatIndex := 0,
        offset := offset, keepOffset := offset, length := 0 }
    ({ c with streams := setStream c.streams name s }, 9 + name.length + 1)

/-- `appendAction.recover`: replay the append's state mutation; the FAT lines
are the same text as in `appendAction.write`. -/
def appendActionRecover (offset : Nat) (name data : List Nat) (c : CommitLog) :
    CommitLog × Nat :=
  let (c1, n1) := actionRecover offset name c
  let n2 := n1 + 4
  let c2 := fatExtend c1 name data.length (c1.size + n2)
  (c2, n2 + data.length)

/-- `pollardAction.recover`: replay the pollard's state mutation. There is
no range check on `pollardPos`. -/
def pollardActionRecover (offset : Nat) (name : List Nat) (pollardPos : Nat)
    (c : CommitLog) : CommitLog × Nat :=
  let (c1, n1) := actionRecover offset name c
  let s := (lookupStream c1 name).getD default
  let s2 := { s with keepOffset := pollardPos }
  ({ c1 with streams := setStream c1.streams name s2 }, n1 + 8)

/-- Outcome of the replay loop of `recover`. -/
inductive RecOutcome where
  | done (c : CommitLog) (r : RState)
  | finalizedErr (c : CommitLog) (r : RState)
  | fuelOut
deriving Repr, DecidableEq

/-- The replay loop of `commitLog.recover`, verbatim: while `size` bytes are
not yet accounted for, peek a flag byte and dispatch on `flag & 0xfc`.
Go's `break` statements inside the `switch` cases leave only the `switch`,
not the `for` loop, so a failed parse continues the loop with the reader
wherever the parse left it, and the `default` case loops again having
consumed nothing at all. -/
def recoverLoop (size : Nat) : Nat → CommitLog → RState → RecOutcome
  | 0, _, _ => .fuelOut
  | fuel + 1, c, r =>
    if size ≤ c.size then .done c r
    else
      match peekAction r with
      | none => .done c r
      | some b =>
        if b &&& flagMask = flagAppend then
          match appendActionRead r with
          | .error r' => recoverLoop size fuel c r'
          | .ok ((_, offset, name, data), r') =>
            let (c', n) := appendActionRecover offset name data c
            recoverLoop size fuel ({ c' with size := c'.size + n }) r'
        else if b &&& flagMask = flagPollard then
          match pollardActionRead r with
          | .error r' => recoverLoop size fuel c r'
          | .ok ((_, offset, name, p), r') =>
            let (c', n) := pollardActionRecover offset name p c
            recoverLoop size fuel ({ c' with size := c'.size + n }) r'
        else if b &&& flagMask = flagDict then
          .finalizedErr { c with finalized := true } r
        else
          recoverLoop size fuel c r

/-- `commitLog.recover` on the contents of an existing file: replay the
committed actions from a fresh in-memory state, then truncate any unconsumed
tail and attach a writer. Returns the log, the resulting file contents and
the returned error (`errIsFinalized` when a dict record was seen — in that
case the file is left untouched and no writer is attached). `none` means the
replay loop ran out of fuel, i.e. the source loop did not terminate within
`fuel` iterations. -/
def recover (fuel : Nat) (file : List Nat) :
    Option (CommitLog × List Nat × Option GoErr) :=
  let size := file.length
  match recoverLoop size fuel freshLog { rest := file, names := [] } with
  | .fuelOut => none
  | .finalizedErr c _ => some (c, file, some .finalized)
  | .done c _ =>
    let file' := if c.size ≠ size then file.take c.size else file
    some ({ c with w := { file := file', budget := none } }, file', none)

/-! ## Sealing (`commitLog.finalize`, `commitLog.writeDictSubtree`) -/

/-- The `fatCount` loop of `writeDictSubtree`: walk the stream's FAT chain
(a do-while), counting extents with bytes above `keepOffset`. `none` is a Go
panic (FAT index out of range) or a chain on which the source loop would not
terminate; fuel `fat.length + 1` covers every chain whose `next` links
strictly increase, which holds in all reachable states. -/
def countFatLoop (fat : List FatEntry) (keep : Nat) :
    Nat → Nat → Nat → Nat → Option Nat
  | 0, _, _, _ => none
  | fuel + 1, fatIndex, foffset, acc =>
    match fat.get? fatIndex with
    | none => none
    | some e =>
      let acc' := if 0 < e.length ∧ keep < foffset + e.length then acc + 1 else acc
      let foffset' := if 0 < e.length then foffset + e.length else foffset
      if e.next = 0 then some acc'
      else countFatLoop fat keep fuel e.next foffset' acc'

/-- The piece-emitting loop of `writeDictSubtree`: for each live extent emit
`[pos+skip : u32][length-skip : u32]`, where `skip` trims the part of the
first live extent below `keepOffset`. The `uint32` casts and subtraction
wrap as in Go. -/
def piecesLoop (fat : List FatEntry) (keep : Nat) :
    Nat → Nat → Nat → List Nat → Option (List Nat)
  | 0, _, _, _ => none
  | fuel + 1, fatIndex, foffset, acc =>
    match fat.get? fatIndex with
    | none => none
    | some e =>
      let acc' :=
        if 0 < e.length ∧ keep < foffset + e.length then
          let skip := if foffset < keep then (keep - foffset) % 2 ^ 32 else 0
          acc ++ u32le (e.pos % 2 ^ 32 + skip) ++ u32le (sub32 e.length skip)
        else acc
      let foffset' := if 0 < e.length then foffset + e.length else foffset
      if e.next = 0 then some acc'
      else piecesLoop fat keep fuel e.next foffset' acc'

/-- Overwrite 4 bytes of the buffer at `pos` with a little-endian `u32`
(the back-patching `binary.LittleEndian.PutUint32(buf.Bytes()[pos:], v)`). -/
def patchU32 (buf : List Nat) (pos val : Nat) : List Nat :=
  buf.take pos ++ u32le val ++ buf.drop (pos + 4)

/-- The byte image `writeDictSubtree` emits for one node before its header
is patched: 8 zero bytes for the two child offsets, the stream name and its
zero terminator, `keepOffset` and `endOffset` as `u64`, the piece count as
`u16`, and the piece list bytes. -/
def nodeBytes (c : CommitLog) (n : List Nat) (fatCount : Nat)
    (pbytes : List Nat) : List Nat :=
  let s := (lookupStream c n).getD default
  List.replicate 8 0 ++ n ++ [0] ++ u64le s.keepOffset ++
    u64le (s.offset + s.length) ++ u16le fatCount ++ pbytes

/-- `commitLog.writeDictSubtree`: serialize the median-split binary search
tree of `names` into the buffer, appending the node, then the left and right
subtrees, back-patching the two child offsets at the node header. Returns
the extended buffer and the node's byte position; `none` is a Go panic in
the FAT chain walk, or recursion fuel exhaustion — each recursive call
shrinks the name list, so any `fuel ≥ names.length + 1` is enough and the
fuel case is unreachable from `finalize`. -/
def writeDictSubtree (c : CommitLog) : Nat → List Nat → List (List Nat) →
    Option (List Nat × Nat)
  | 0, _, _ => none
  | fuel + 1, buf, names =>
    if names.length = 0 then some (buf, 0)
    else
      let middle := names.length / 2
      let pos := buf.length
      let n := names.getD middle []
      let s := (lookupStream c n).getD default
      match countFatLoop c.fat s.keepOffset (c.fat.length + 1)
          s.firstFatIndex s.offset 0 with
      | none => none
      | some fatCount =>
        match piecesLoop c.fat s.keepOffset (c.fat.length + 1)
            s.firstFatIndex s.offset [] with
        | none => none
        | some pbytes =>
          let buf2 := buf ++ nodeBytes c n fatCount pbytes
          let step1 : Option (List Nat) :=
            if 0 < middle then
              match writeDictSubtree c fuel buf2 (names.take middle) with
              | none => none
              | some (b, leftPos) => some (patchU32 b pos leftPos)
            else some buf2
          match step1 with
          | none => none
          | some buf3 =>
            if middle + 1 ≠ names.length then
              match writeDictSubtree c fuel buf3 (names.drop (middle + 1)) with
              | none => none
              | some (b, rightPos) => some (patchU32 b (pos + 4) rightPos, pos)
            else some (buf3, pos)

/-- The fixed magic bytes of the 16-byte trailer. -/
def trailerMagic : List Nat := [42, 0, 42, 0, 42, 255, 42, 255]

/-- `commitLog.finalize`: write the flag byte and the dictionary tree into a
scratch buffer, append the 16-byte trailer — the `u64` byte count taken from
the buffer length *after* the flag byte was written, then the magic — and
persist the whole blob. `none` is a Go panic in the FAT chain walk. -/
def finalize (c : CommitLog) : Option (CommitLog × Option GoErr) :=
  if c.finalized then some (c, some .finalized)
  else
    let names := sortNames (c.streams.map Prod.fst)
    match writeDictSubtree c (names.length + 1) [flagDict] names with
    | none => none
    | some (buf, _) =>
      let blob := buf ++ u64le buf.length ++ trailerMagic
      let (w', ok) := c.w.write blob
      if ok then some ({ c with w := w', finalized := true }, none)
      else some ({ c with w := w' }, some .ioFail)

/-! ## Sealed log reader (`logreader.go`) -/

/-- `logReaderPiece`. -/
structure LogReaderPiece where
  pos : Nat
  length : Nat
deriving Repr, DecidableEq, Inhabited

/-- `logReaderEntry`. -/
structure LogReaderEntry where
  span : Span
  pieces : List LogReaderPiece
deriving Repr, DecidableEq, Inhabited

/-- `logReader.open`: read and check the 16-byte trailer, then seek back a
further `dictByteCount` bytes from the trailer and load the dictionary. -/
def lrOpen (file : List Nat) : Except GoErr (List Nat) :=
  if file.length < 16 then .error .ioFail
  else
    let trailer := file.drop (file.length - 16)
    if trailer.getD 8 0 = 42 ∧ trailer.getD 9 0 = 0 ∧
        trailer.getD 10 0 = 42 ∧ trailer.getD 11 0 = 0 then
      if trailer.getD 12 0 = 42 ∧ trailer.getD 13 0 = 255 ∧
          trailer.getD 14 0 = 42 ∧ trailer.getD 15 0 = 255 then
        let size := leVal (trailer.take 8)
        if file.length < size + 16 then .error .ioFail
        else .ok ((file.drop (file.length - 16 - size)).take size)
      else .error .invalid
    else .error .invalid

/-- Go `binary.LittleEndian.Uint32(dict[pos:])`; `none` when fewer than four
bytes remain (a Go slice-bounds panic). -/
def readU32 (dict : List Nat) (pos : Nat) : Option Nat :=
  if pos + 4 ≤ dict.length then some (leVal ((dict.drop pos).take 4)) else none

/-- Go `binary.LittleEndian.Uint64(dict[pos:])`. -/
def readU64 (dict : List Nat) (pos : Nat) : Option Nat :=
  if pos + 8 ≤ dict.length then some (leVal ((dict.drop pos).take 8)) else none

/-- Go `binary.LittleEndian.Uint16(dict[pos:])`. -/
def readU16 (dict : List Nat) (pos : Nat) : Option Nat :=
  if pos + 2 ≤ dict.length then some (leVal ((dict.drop pos).take 2)) else none

/-- Outcome of the byte-comparison loop at one dictionary node. -/
inductive InnerRes where
  | desc (newPos : Nat)
  | fullMatch
  | panicked
deriving Repr, DecidableEq

/-- The inner loop of `logReader.search`: compare the query's bytes against
the node's name bytes at `dict[pos+8+i]`; descend right when the node byte
is smaller, left when larger. -/
def searchInner (dict : List Nat) (pos : Nat) : List Nat → Nat → InnerRes
  | [], _ => .fullMatch
  | q :: qs, i =>
    match dict.get? (pos + 8 + i) with
    | none => .panicked
    | some d =>
      if d < q then
        match readU32 dict (pos + 4) with
        | none => .panicked
        | some p => .desc p
      else if q < d then
        match readU32 dict pos with
        | none => .panicked
        | some p => .desc p
      else searchInner dict pos qs (i + 1)

/-- Parse `count` pieces of `[pos:u32][length:u32]` at `pos`. -/
def parsePieces (dict : List Nat) : Nat → Nat → Option (List LogReaderPiece)
  | _, 0 => some []
  | pos, k + 1 =>
    match readU32 dict pos, readU32 dict (pos + 4) with
    | some p, some l =>
      (parsePieces dict (pos + 8) k).map (fun r => ⟨p, l⟩ :: r)
    | _, _ => none

/-- Parse the matched node's payload:
`[keepOffset:u64][endOffset:u64][pieceCount:u16]` then the pieces. -/
def parseEntry (dict : List Nat) (pos : Nat) : Option LogReaderEntry :=
  match readU64 dict pos, readU64 dict (pos + 8), readU16 dict (pos + 16) with
  | some f, some t, some cnt =>
    (parsePieces dict (pos + 18) cnt).map
      (fun ps => { span := { From := f, To := t }, pieces := ps })
  | _, _, _ => none

/-- Result of `logReader.search`. -/
inductive SearchRes where
  | found (e : LogReaderEntry)
  | notFound
  | panicked
  | fuelOut
deriving Repr, DecidableEq

/-- The outer loop of `logReader.search`: walk the flat BST from `pos`,
following left/right child byte offsets; offset `0` means not found. -/
def searchLoop (dict name : List Nat) : Nat → Nat → SearchRes
  | 0, _ => .fuelOut
  | fuel + 1, pos =>
    match searchInner dict pos name 0 with
    | .panicked => .panicked
    | .desc p => if p = 0 then .notFound else searchLoop dict name fuel p
    | .fullMatch =>
      match dict.get? (pos + 8 + name.length) with
      | none => .panicked
      | some d =>
        if d ≠ 0 then
          match readU32 dict pos with
          | none => .panicked
          | some p => if p = 0 then .notFound else searchLoop dict name fuel p
        else
          match parseEntry dict (pos + 8 + name.length + 1) with
          | none => .panicked
          | some e => .found e

/-- `logReader.search`: start at dictionary position 1, skipping the flag
byte that `open` loaded at position 0. -/
def search (dict name : List Nat) (fuel : Nat) : SearchRes :=
  searchLoop dict name fuel 1

/-- Result of `logReader.read`. -/
inductive LrRes where
  | ok (bytes : List Nat)
  | err (e : GoErr)
  | panicked
  | fuelOut
deriving Repr, DecidableEq

/-- The piece-skipping loop of `logReader.read`: advance over pieces wholly
before `offset`; running off the end of the piece list is a Go index panic. -/
def lrSkip (pieces : List LogReaderPiece) (offset : Nat) :
    Nat → Nat → Nat → SkipRes
  | 0, _, _ => .fuelOut
  | fuel + 1, piece, eoffset =>
    match pieces.get? piece with
    | none => .panicked
    | some p =>
      if offset ≥ eoffset + p.length then
        lrSkip pieces offset fuel (piece + 1) (eoffset + p.length)
      else .found piece eoffset

/-- The fill loop of `logReader.read`: positioned reads across successive
pieces. `posOffset` is Go's `uint32(offset-eoffset)` and the piece length
subtraction wraps as `uint32`; a `ReadAt` error is returned to the caller
(unlike `readStream`). -/
def lrFill (file : List Nat) (pieces : List LogReaderPiece) :
    Nat → Nat → Nat → Nat → Nat → Nat → List Nat → LrRes
  | 0, _, _, _, _, _, _ => .fuelOut
  | fuel + 1, piece, toRead, done, offset, eoffset, acc =>
    if toRead = 0 then .ok acc
    else
      match pieces.get? piece with
      | none => .panicked
      | some p =>
        let posOffset := wrap64 ((offset : Int) - (eoffset : Int)) % 2 ^ 32
        let rc := min (sub32 p.length posOffset) toRead
        match readAt file (((p.pos % 2 ^ 32 + posOffset) % 2 ^ 32 : Nat) : Int) rc with
        | none => .err .ioFail
        | some bs =>
          lrFill file pieces fuel (piece + 1) (toRead - rc) (done + rc)
            (offset + rc) (eoffset + p.length) (acc ++ bs)

/-- `logReader.read`: bounds-check against the entry's span, then skip and
fill over the piece list. -/
def lrRead (file : List Nat) (e : LogReaderEntry) (offset bufLen fuel : Nat) :
    LrRes :=
  if offset < e.span.From ∨ (offset + bufLen) % 2 ^ 64 > e.span.To then
    .err .invalid
  else
    match lrSkip e.pieces offset fuel 0 e.span.From with
    | .fuelOut => .fuelOut
    | .panicked => .panicked
    | .found piece eoffset =>
      lrFill file e.pieces fuel piece bufLen 0 offset eoffset []

/-! ## The abstract shape of the dictionary tree

`writeDictSubtree` serializes the binary search tree obtained from the
sorted name list by recursive median split (root `names[len/2]`, subtrees
from the two halves). `dictTree` is that tree; `inorder` its in-order
traversal. -/

/-- A binary tree of stream names. -/
inductive BTree where
  | leaf
  | node (l : BTree) (name : List Nat) (r : BTree)
deriving Repr, DecidableEq

/-- The median-split tree `writeDictSubtree` serializes: the same
`middle := len / 2`, `names[:middle]`, `names[middle+1:]` recursion. -/
def dictTree (names : List (List Nat)) : BTree :=
  if _h : names.length = 0 then .leaf
  else
    let middle := names.length / 2
    .node (dictTree (names.take middle)) (names.getD middle [])
      (dictTree (names.drop (middle + 1)))
termination_by names.length
decreasing_by
  · simp only [List.length_take]
    omega
  · simp only [List.length_drop]
    omega

/-- In-order traversal. -/
def inorder : BTree → List (List Nat)
  | .leaf => []
  | .node l n r => inorder l ++ n :: inorder r

/-! ## Well-formedness of committed actions

The spec's data model bounds every on-disk field: stream names are
non-empty zero-free byte strings, `dataLen` is a `u32`, offsets and pollard
positions are `u64`, ordinals are `u16`. An action within those bounds
round-trips through the byte format. -/

/-- A stream name as the spec defines it: bytes, no zero byte (the on-disk
terminator). -/
def wfName (n : List Nat) : Prop := ∀ b ∈ n, b < 256 ∧ b ≠ 0

/-- An action whose fields fit the on-disk format of the spec. -/
def wfAction : Action → Prop
  | .app name off data => wfName name ∧ off < 2 ^ 64 ∧ data.length < 2 ^ 32
  | .pol name off p => wfName name ∧ off < 2 ^ 64 ∧ p < 2 ^ 64

/-- Discard the writer: the part of a `commitLog` the replay loop of
`recover` rebuilds (it attaches a writer only after the loop). -/
def stripW (c : CommitLog) : CommitLog :=
  { c with w := { file := [], budget := none } }

/-- The correspondence `recover` relies on between stream numbers and the
reader's `names` table: stream number `i` is the `i`-th name in assignment
order (the insertion order of the map model). -/
def namesInv (c : CommitLog) : Prop :=
  ∀ name s, lookupStream c name = some s →
    s.number < c.streams.length ∧
    (c.streams.map Prod.fst).getD s.number [] = name

/-- Equality of `Except` results is decidable (used to evaluate concrete
instances of the theorems below). -/
def exceptDecEq {ε α : Type} [DecidableEq ε] [DecidableEq α] :
    DecidableEq (Except ε α)
  | .ok x, .ok y =>
    if h : x = y then isTrue (h ▸ rfl)
    else isFalse (fun hh => h (Except.ok.inj hh))
  | .error x, .error y =>
    if h : x = y then isTrue (h ▸ rfl)
    else isFalse (fun hh => h (Except.error.inj hh))
  | .ok _, .error _ => isFalse (fun hh => Except.noConfusion hh)
  | .error _, .ok _ => isFalse (fun hh => Except.noConfusion hh)

attribute [instance] exceptDecEq

/-- Well-formedness of a name is decidable (used to evaluate concrete
instances of the round-trip theorems). -/
def wfNameDecidable : DecidablePred wfName := fun n =>
  inferInstanceAs (Decidable (∀ b ∈ n, b < 256 ∧ b ≠ 0))

attribute [instance] wfNameDecidable

/-- Well-formedness of an action is decidable. -/
def wfActionDecidable : DecidablePred wfAction := fun a =>
  match a with
  | .app name off data =>
    inferInstanceAs (Decidable (wfName name ∧ off < 2 ^ 64 ∧
      data.length < 2 ^ 32))
  | .pol name off p =>
    inferInstanceAs (Decidable (wfName name ∧ off < 2 ^ 64 ∧ p < 2 ^ 64))

attribute [instance] wfActionDecidable

/-- The append-only single-stream scenario of the spec: successive appends
to one stream at contiguous offsets starting at `off`. -/
def appendsFrom (name : List Nat) (off : Nat) :
    List (List Nat) → List Action
  | [] => []
  | d :: ds => .app name off d :: appendsFrom name (off + d.length) ds

/-- The FAT chain starting at index `f` consists exactly of the listed
`(index, payload)` pairs, in order: each entry's length is its payload's
length, a positioned read of the file at the entry's `pos` returns the
payload, the `next` links are strictly increasing and the chain ends with
`next = 0` at the last entry. -/
def ChainReads (fat : List FatEntry) (file : List Nat) :
    Nat → List (Nat × List Nat) → Prop
  | _, [] => False
  | f, [(i, d)] =>
    f = i ∧ 0 < d.length ∧
    ∃ p, fat.get? i = some ⟨0, p, d.length⟩ ∧
      readAt file p d.length = some d
  | f, (i, d) :: rest =>
    f = i ∧ 0 < d.length ∧
    ∃ p nx, fat.get? i = some ⟨nx, p, d.length⟩ ∧
      readAt file p d.length = some d ∧ i < nx ∧ nx ≠ 0 ∧
      ChainReads fat file nx rest

/-- Invariant of a log holding a single stream `name` built by `k` nonempty
appends whose payloads concatenate to `bytes`: the stream's FAT chain reads
back exactly the appended payloads from the writer's file. -/
def SingleInv (name : List Nat) (c : CommitLog) (bytes : List Nat)
    (k : Nat) : Prop :=
  c.w.budget = none ∧ c.finalized = false ∧ c.size = c.w.file.length ∧
  ∃ s init L dL,
    lookupStream c name = some s ∧ c.streams = [(name, s)] ∧
    s.offset = 0 ∧ s.keepOffset = 0 ∧ s.length = bytes.length ∧
    s.lastFatIndex = L ∧ 0 < bytes.length ∧
    ChainReads c.fat c.w.file s.firstFatIndex (init ++ [(L, dL)]) ∧
    ((init ++ [(L, dL)]).map Prod.snd).flatten = bytes ∧
    (init ++ [(L, dL)]).length = k ∧ c.fat.length = k

/-! # Helper lemmas -/

theorem leVal_leBytes (k x : Nat) : leVal (leBytes k x) = x % 256 ^ k := by
  induction k generalizing x with
  | zero => simp [leBytes, leVal, Nat.mod_one]
  | succ n ih =>
    simp only [leBytes, leVal, ih]
    rw [Nat.pow_succ, Nat.mul_comm (256 ^ n) 256, Nat.mod_mul]

theorem leBytes_length (k x : Nat) : (leBytes k x).length = k := by
  induction k generalizing x with
  | zero => rfl
  | succ n ih => simp [leBytes, ih]

/-- `Writer.write` on a writer that never fails. -/
theorem Writer.write_none {w : Writer} (h : w.budget = none) (bs : List Nat) :
    w.write bs = ({ w with file := w.file ++ bs }, true) := by
  unfold Writer.write
  rw [h]

/-- `setStream` followed by a lookup of the same name. -/
theorem find?_setStream (l : List (List Nat × StreamLog)) (n : List Nat)
    (s : StreamLog) :
    (setStream l n s).find? (fun p => p.1 = n) = some (n, s) := by
  induction l with
  | nil => simp [setStream]
  | cons kv r ih =>
    obtain ⟨k, v⟩ := kv
    by_cases h : k = n
    · subst h
      simp [setStream]
    · simp [setStream, h, ih]

theorem patchU32_take_of_le {b : List Nat} {q : Nat} (v : Nat) {m : Nat}
    (hm : m ≤ q) (hb : m ≤ b.length) :
    (patchU32 b q v).take m = b.take m := by
  have h1 : m ≤ (List.take q b).length := by
    simp only [List.length_take]; omega
  have h2 : m ≤ (List.take q b ++ u32le v).length := by
    simp only [List.length_append]; omega
  rw [patchU32, List.take_append_of_le_length h2,
    List.take_append_of_le_length h1, List.take_take, Nat.min_eq_left hm]

theorem patchU32_length {b : List Nat} {q : Nat} (v : Nat)
    (h : q + 4 ≤ b.length) : (patchU32 b q v).length = b.length := by
  simp only [patchU32, List.length_append, List.length_take,
    List.length_drop, u32le, leBytes_length]
  omega

theorem nodeBytes_length_ge (c : CommitLog) (n : List Nat) (fc : Nat)
    (pb : List Nat) : 8 ≤ (nodeBytes c n fc pb).length := by
  simp [nodeBytes, List.length_append]

/-- `writeDictSubtree` only appends: the original buffer is a preserved
initial segment of the returned buffer (the back-patching touches only the
8 header bytes of nodes the call itself emitted). -/
theorem wds_prefix (c : CommitLog) : ∀ fuel names buf buf' pos,
    writeDictSubtree c fuel buf names = some (buf', pos) →
    buf'.take buf.length = buf ∧ buf.length ≤ buf'.length := by
  intro fuel
  induction fuel with
  | zero =>
    intro names buf buf' pos h
    exact absurd h (by simp [writeDictSubtree])
  | succ n ih =>
    intro names buf buf' pos h
    rw [writeDictSubtree] at h
    simp only at h
    split at h
    · simp only [Option.some.injEq, Prod.mk.injEq] at h
      obtain ⟨rfl, rfl⟩ := h
      simp
    · rename_i h0
      split at h
      · exact absurd h (by simp)
      · rename_i fc hfc
        split at h
        · exact absurd h (by simp)
        · rename_i pb hpb
          split at h
          · simp at h
          · rename_i bs hstepEq
            have hbs : bs.take buf.length = buf ∧ buf.length + 8 ≤ bs.length := by
              have hA : ∀ z : List Nat,
                  (buf ++ nodeBytes c (names.getD (names.length / 2) []) fc pb).take
                      buf.length = buf := by
                intro _
                exact List.take_left _ _
              have hAlen : buf.length + 8 ≤
                  (buf ++ nodeBytes c (names.getD (names.length / 2) []) fc pb).length := by
                have := nodeBytes_length_ge c (names.getD (names.length / 2) []) fc pb
                simp only [List.length_append]
                omega
              split at hstepEq
              · split at hstepEq
                · exact absurd hstepEq (by simp)
                · rename_i b leftPos hrec
                  obtain ⟨hb1, hb2⟩ := ih _ _ _ _ hrec
                  simp only [Option.some.injEq] at hstepEq
                  subst hstepEq
                  have hble : buf.length ≤ b.length := by
                    simp only [List.length_append] at hb2 ⊢
                    omega
                  constructor
                  · rw [patchU32_take_of_le _ le_rfl hble]
                    have hmin : List.take buf.length b =
                        List.take buf.length (List.take (buf ++
                          nodeBytes c (names.getD (names.length / 2) []) fc pb).length b) := by
                      rw [List.take_take, Nat.min_eq_left]
                      simp only [List.length_append]
                      omega
                    rw [hmin, hb1]
                    exact hA []
                  · rw [patchU32_length]
                    · omega
                    · omega
              · simp only [Option.some.injEq] at hstepEq
                subst hstepEq
                exact ⟨hA [], hAlen⟩
            obtain ⟨hbs1, hbs2⟩ := hbs
            split at h
            · split at h
              · exact absurd h (by simp)
              · rename_i b2 rp hrec2
                obtain ⟨hc1, hc2⟩ := ih _ _ _ _ hrec2
                simp only [Option.some.injEq, Prod.mk.injEq] at h
                obtain ⟨rfl, rfl⟩ := h
                constructor
                · rw [patchU32_take_of_le _ (by omega) (by omega)]
                  have hmin : List.take buf.length b2 =
                      List.take buf.length (List.take bs.length b2) := by
                    rw [List.take_take, Nat.min_eq_left (by omega)]
                  rw [hmin, hc1, hbs1]
                · rw [patchU32_length _ (by omega)]
                  omega
            · simp only [Option.some.injEq, Prod.mk.injEq] at h
              obtain ⟨rfl, rfl⟩ := h
              exact ⟨hbs1, by omega⟩

/-! # Claim C5 — termination of the recovery replay loop -/

/-- On a file whose first byte has a flag kind that is none of append,
pollard, or dict, the replay loop makes no progress: Go's `break` in the
`default` case of the `switch` leaves only the `switch`, the byte was only
peeked, and the loop re-peeks it forever. -/
theorem recoverLoop_stuck_on_garbage (fuel : Nat) :
    recoverLoop 1 fuel freshLog { rest := [0], names := [] } = .fuelOut := by
  induction fuel with
  | zero => rfl
  | succ n ih => exact ih

/-- Claim C5: false on the code. For the one-byte file `[0x00]` the replay
loop of `recover` never terminates, for any amount of fuel — the source
loops forever instead of halting and truncating. -/
theorem recover_diverges_on_garbage_flag :
    ∀ fuel, recover fuel [0] = none := by
  intro fuel
  simp [recover, recoverLoop_stuck_on_garbage]

/-! # Claim C6 — atomicity of `commit` with respect to in-memory state -/

/-- Claim C6: false on the code. With a writer that fails once 16 bytes have
been written (an I/O failure on the data write), committing an append of
`"Hi"` to the new stream `"s1"` returns the error — but the stream map has
gained the stream and the FAT has gained the extent: the source rolls
nothing back. Only `size` is left unchanged. -/
theorem commit_write_failure_mutates_state :
    (commit { freshLog with w := { file := [], budget := some 16 } }
        (.app [115, 49] 0 [72, 105])).2 = some .ioFail ∧
    lookupStream (commit { freshLog with w := { file := [], budget := some 16 } }
        (.app [115, 49] 0 [72, 105])).1 [115, 49] =
      some { number := 0, firstFatIndex := 0, lastFatIndex := 0,
             offset := 0, keepOffset := 0, length := 2 } ∧
    (commit { freshLog with w := { file := [], budget := some 16 } }
        (.app [115, 49] 0 [72, 105])).1.fat =
      [{ next := 0, pos := 16, length := 2 }] ∧
    (commit { freshLog with w := { file := [], budget := some 16 } }
        (.app [115, 49] 0 [72, 105])).1.size = 0 := by
  decide

/-! # Claim C7 — error behavior of `readStream` -/

/-- Claim C7: false on the code (a bug the spec itself flags): when a
positioned `ReadAt` inside `readStream` fails, the source executes
`return 0, nil` — the I/O error is swallowed and success is reported even
though the 18-byte buffer received only 11 bytes. The input is the state
after two appends to `"s1"` whose file lost its last byte (the torn-write
situation of the spec's crash scenario), so the second extent's `ReadAt`
fails. -/
theorem readStream_swallows_readAt_error :
    (let c := runCommits freshLog
        [.app [115, 49] 0 [72, 101, 108, 108, 111, 32, 87, 111, 114, 108, 100],
         .app [115, 49] 11 [33, 71, 114, 101, 97, 116, 33]]
     readStream { c with w := { file := c.w.file.take 40, budget := none } }
       [115, 49] 0 18 20) =
      .ret 0 none [72, 101, 108, 108, 111, 32, 87, 111, 114, 108, 100] ∧
    ([72, 101, 108, 108, 111, 32, 87, 111, 114, 108, 100] : List Nat).length < 18 := by
  decide

/-! # Claim C10 — a pollard commit on an unseen stream name -/

/-- Claim C10: committing a pollard for a name never mentioned in the log
succeeds (no `NotFound`), creates the stream with the next ordinal,
`baseOffset = action.offset` and length `0`, then sets its `keepOffset` to
`pollardPos`; `streamRange` subsequently returns `[pollardPos, offset)`. -/
theorem pollard_unseen_stream_creates (c : CommitLog) (name : List Nat)
    (off p : Nat) (hfin : c.finalized = false)
    (hnew : lookupStream c name = none) (hbud : c.w.budget = none)
    (hcnt : c.streams.length < 2 ^ 16) (hoff : off < 2 ^ 64) :
    (commit c (.pol name off p)).2 = none ∧
    lookupStream (commit c (.pol name off p)).1 name =
      some { number := c.streams.length, firstFatIndex := 0, lastFatIndex := 0,
             offset := off, keepOffset := p, length := 0 } ∧
    streamRange (commit c (.pol name off p)).1 name =
      .ok { From := p, To := off } := by
  obtain ⟨streams, ⟨file, budget⟩, size, fat, fin⟩ := c
  simp only at hfin hnew hbud hcnt
  subst hbud
  subst hfin
  simp only [lookupStream] at hnew
  simp [commit, pollardActionWrite, actionWrite, hnew, Writer.write,
    lookupStream, find?_setStream, streamRange,
    Nat.mod_eq_of_lt hcnt, Nat.mod_eq_of_lt hoff]
  exact ⟨by simpa using hcnt, by simpa using hoff⟩

/-- Witness for C10 at a concrete input: pollard of unseen `"s1"` with
`offset 5`, `pollardPos 3` on a fresh log. -/
theorem pollard_unseen_stream_creates_witness :
    (commit freshLog (.pol [115, 49] 5 3)).2 = none ∧
    lookupStream (commit freshLog (.pol [115, 49] 5 3)).1 [115, 49] =
      some { number := freshLog.streams.length, firstFatIndex := 0,
             lastFatIndex := 0, offset := 5, keepOffset := 3, length := 0 } ∧
    streamRange (commit freshLog (.pol [115, 49] 5 3)).1 [115, 49] =
      .ok { From := 3, To := 5 } :=
  pollard_unseen_stream_creates freshLog [115, 49] 5 3 rfl rfl rfl
    (by decide) (by decide)

theorem trailerMagic_length : trailerMagic.length = 8 := rfl

/-- `logReader.open` on a file laid out as `base ++ blob ++ trailer`: the
back-seek of `dictByteCount + 16` bytes from end-of-file loads exactly the
`dictByteCount` bytes in front of the trailer. -/
theorem lrOpen_layout (base blob : List Nat) (hlen : blob.length < 2 ^ 64) :
    lrOpen (base ++ blob ++ u64le blob.length ++ trailerMagic) = .ok blob := by
  have h16 : (u64le blob.length ++ trailerMagic).length = 16 := by
    simp [u64le, leBytes_length, trailerMagic]
  have hfile : base ++ blob ++ u64le blob.length ++ trailerMagic =
      (base ++ blob) ++ (u64le blob.length ++ trailerMagic) := by
    simp [List.append_assoc]
  have hlen' : (base ++ blob ++ u64le blob.length ++ trailerMagic).length =
      (base ++ blob).length + 16 := by
    rw [hfile, List.length_append, h16]
  rw [lrOpen]
  rw [if_neg (by omega)]
  have hdrop : (base ++ blob ++ u64le blob.length ++ trailerMagic).drop
      ((base ++ blob ++ u64le blob.length ++ trailerMagic).length - 16) =
      u64le blob.length ++ trailerMagic := by
    rw [hlen', hfile]
    have : (base ++ blob).length + 16 - 16 = (base ++ blob).length := by omega
    rw [this, List.drop_left]
  rw [hdrop]
  have h8 : (u64le blob.length).length = 8 := by simp [u64le, leBytes_length]
  have hget : ∀ i v : Nat, 8 ≤ i → trailerMagic.getD (i - 8) 0 = v →
      (u64le blob.length ++ trailerMagic).getD i 0 = v := by
    intro i v hi hv
    rw [List.getD_append_right _ _ _ _ (by omega), h8]
    exact hv
  rw [if_pos ⟨hget 8 42 (by omega) rfl, hget 9 0 (by omega) rfl,
        hget 10 42 (by omega) rfl, hget 11 0 (by omega) rfl⟩,
      if_pos ⟨hget 12 42 (by omega) rfl, hget 13 255 (by omega) rfl,
        hget 14 42 (by omega) rfl, hget 15 255 (by omega) rfl⟩]
  have etake : (u64le blob.length ++ trailerMagic).take 8 = u64le blob.length :=
    List.take_left' h8
  have esize : leVal ((u64le blob.length ++ trailerMagic).take 8) = blob.length := by
    rw [etake]
    rw [u64le, leVal_leBytes, show (256 : Nat) ^ 8 = 2 ^ 64 by norm_num]
    exact Nat.mod_eq_of_lt hlen
  have hbb : (base ++ blob).length = base.length + blob.length :=
    List.length_append _ _
  rw [esize, if_neg (by omega)]
  have h1 : (base ++ blob ++ u64le blob.length ++ trailerMagic).length - 16 -
      blob.length = base.length := by
    rw [hlen']
    simp only [List.length_append]
    omega
  rw [h1]
  have hassoc : base ++ blob ++ u64le blob.length ++ trailerMagic =
      base ++ (blob ++ (u64le blob.length ++ trailerMagic)) := by
    simp [List.append_assoc]
  rw [hassoc, List.drop_left, List.take_left]

/-! # Claim C4 — what `dictByteCount` counts, and where the back-seek lands -/

/-- Claim C4 counterexample: for the concrete log with one stream `"s1"`
(one append, one pollard), `finalize` succeeds and the whole dict record in
front of the 16-byte tail is 38 bytes whose first byte is the `flagDict`
flag — so the serialized dictionary body after the flag has 37 bytes — yet
the `u64` the trailer records is 38, not 37: `dictByteCount` includes the
leading flag byte, contradicting the claim. -/
theorem dictByteCount_includes_flag_byte :
    (let c := runCommits freshLog [.app [115, 49] 0 [72, 105], .pol [115, 49] 2 1]
     (finalize c).map (fun p =>
       (p.2,
        leVal ((p.1.w.file.drop (p.1.w.file.length - 16)).take 8),
        p.1.w.file.length - c.w.file.length - 16,
        p.1.w.file.getD c.w.file.length 0))) =
      some (none, 38, 38, flagDict) ∧ (38 : Nat) ≠ 38 - 1 := by
  decide

/-- Claim C4 amended: the `u64` written into the trailer is the length of
the flag byte *plus* the dictionary body (and excludes the 16-byte tail),
and the sealed reader's back-seek of `dictByteCount + 16` bytes from
end-of-file lands on the `flagDict` byte — one byte *before* the body —
loading flag byte plus body as its dictionary (whose offset 1, where
`search` starts, is the body). -/
theorem finalize_dict_count_and_backseek (c : CommitLog) (buf : List Nat)
    (pos : Nat) (hfin : c.finalized = false) (hbud : c.w.budget = none)
    (hwds : writeDictSubtree c ((sortNames (c.streams.map Prod.fst)).length + 1)
        [flagDict] (sortNames (c.streams.map Prod.fst)) = some (buf, pos))
    (hlen : buf.length < 2 ^ 64) :
    ∃ body, buf = flagDict :: body ∧
      finalize c = some ({ c with
        w := { file := c.w.file ++ buf ++ u64le buf.length ++ trailerMagic,
               budget := none }, finalized := true }, none) ∧
      leVal (u64le buf.length) = body.length + 1 ∧
      lrOpen (c.w.file ++ buf ++ u64le buf.length ++ trailerMagic) =
        .ok (flagDict :: body) := by
  obtain ⟨htake, hge⟩ := wds_prefix c _ _ _ _ _ hwds
  have hbuf : buf = flagDict :: buf.drop 1 := by
    have h1 : buf.take 1 = [flagDict] := by simpa using htake
    conv_lhs => rw [← List.take_append_drop 1 buf, h1]
    simp
  refine ⟨buf.drop 1, hbuf, ?_, ?_, ?_⟩
  · simp only [finalize, hfin, Bool.false_eq_true, if_false, hwds,
      Writer.write_none hbud, if_true]
    simp [hbud, List.append_assoc]
  · rw [u64le, leVal_leBytes, show (256 : Nat) ^ 8 = 2 ^ 64 by norm_num,
      Nat.mod_eq_of_lt hlen]
    conv_lhs => rw [hbuf]
    simp
  · rw [← hbuf]
    exact lrOpen_layout c.w.file buf hlen

/-- Witness for the amended C4 at the concrete one-stream log of the
counterexample. -/
theorem finalize_dict_count_and_backseek_witness :
    ∃ body,
      ([12, 0, 0, 0, 0, 0, 0, 0, 0, 115, 49, 0, 1, 0, 0, 0, 0, 0, 0, 0,
        2, 0, 0, 0, 0, 0, 0, 0, 1, 0, 17, 0, 0, 0, 1, 0, 0, 0] : List Nat) =
        flagDict :: body ∧
      finalize (runCommits freshLog [.app [115, 49] 0 [72, 105], .pol [115, 49] 2 1]) =
        some ({ runCommits freshLog [.app [115, 49] 0 [72, 105], .pol [115, 49] 2 1] with
          w := { file := (runCommits freshLog [.app [115, 49] 0 [72, 105],
                    .pol [115, 49] 2 1]).w.file ++
                  [12, 0, 0, 0, 0, 0, 0, 0, 0, 115, 49, 0, 1, 0, 0, 0, 0, 0, 0, 0,
                   2, 0, 0, 0, 0, 0, 0, 0, 1, 0, 17, 0, 0, 0, 1, 0, 0, 0] ++
                  u64le 38 ++ trailerMagic,
                 budget := none }, finalized := true }, none) ∧
      leVal (u64le 38) = body.length + 1 ∧
      lrOpen ((runCommits freshLog [.app [115, 49] 0 [72, 105], .pol [115, 49] 2 1]).w.file ++
          [12, 0, 0, 0, 0, 0, 0, 0, 0, 115, 49, 0, 1, 0, 0, 0, 0, 0, 0, 0,
           2, 0, 0, 0, 0, 0, 0, 0, 1, 0, 17, 0, 0, 0, 1, 0, 0, 0] ++
          u64le 38 ++ trailerMagic) =
        .ok (flagDict ::
          [0, 0, 0, 0, 0, 0, 0, 0, 115, 49, 0, 1, 0, 0, 0, 0, 0, 0, 0,
           2, 0, 0, 0, 0, 0, 0, 0, 1, 0, 17, 0, 0, 0, 1, 0, 0, 0]) := by
  have h := finalize_dict_count_and_backseek
    (runCommits freshLog [.app [115, 49] 0 [72, 105], .pol [115, 49] 2 1])
    [12, 0, 0, 0, 0, 0, 0, 0, 0, 115, 49, 0, 1, 0, 0, 0, 0, 0, 0, 0,
     2, 0, 0, 0, 0, 0, 0, 0, 1, 0, 17, 0, 0, 0, 1, 0, 0, 0] 1
    (by decide) (by decide) (by decide) (by decide)
  obtain ⟨body, h1, h2, h3, h4⟩ := h
  obtain rfl : body = [0, 0, 0, 0, 0, 0, 0, 0, 115, 49, 0, 1, 0, 0, 0, 0, 0, 0, 0,
      2, 0, 0, 0, 0, 0, 0, 0, 1, 0, 17, 0, 0, 0, 1, 0, 0, 0] := by
    have := h1
    simp [flagDict] at this
    exact this.symm
  exact ⟨_, h1, h2, h3, h4⟩

/-! # Claim C9 — dictionary ordering -/

/-- The key list of `setStream`: replacement keeps the keys, insertion
appends the new name. -/
theorem keys_setStream (l : List (List Nat × StreamLog)) (n : List Nat)
    (s : StreamLog) :
    (setStream l n s).map Prod.fst =
      if n ∈ l.map Prod.fst then l.map Prod.fst
      else l.map Prod.fst ++ [n] := by
  induction l with
  | nil => simp [setStream]
  | cons kv r ih =>
    obtain ⟨k, v⟩ := kv
    by_cases hk : k = n
    · subst hk
      simp [setStream]
    · simp only [setStream, if_neg hk, List.map_cons, ih]
      by_cases hn : n ∈ r.map Prod.fst
      · simp [hn]
      · simp [hn, Ne.symm hk]

theorem nodup_setStream {l : List (List Nat × StreamLog)} (n : List Nat)
    (s : StreamLog) (h : (l.map Prod.fst).Nodup) :
    ((setStream l n s).map Prod.fst).Nodup := by
  rw [keys_setStream]
  split
  · exact h
  · rename_i hn
    simp [List.nodup_append, h, hn]

theorem nodup_keys_actionWrite (flags off : Nat) (name : List Nat)
    (c : CommitLog) (h : (c.streams.map Prod.fst).Nodup) :
    ((actionWrite flags off name c).1.streams.map Prod.fst).Nodup := by
  unfold actionWrite
  cases hl : lookupStream c name with
  | some s => simp only [hl]; exact h
  | none =>
    simp only [hl]
    rcases hw : c.w.write ((flags ||| flagWithName) % 256 :: u64le off) with ⟨w1, ok1⟩
    simp only [hw]
    cases ok1
    · exact nodup_setStream _ _ h
    · rcases hw2 : w1.write name with ⟨w2, ok2⟩
      simp only [hw2]
      cases ok2
      · exact nodup_setStream _ _ h
      · rcases hw3 : w2.write [0] with ⟨w3, ok3⟩
        simp only [hw3]
        cases ok3 <;> exact nodup_setStream _ _ h

theorem nodup_keys_fatExtend (c : CommitLog) (name : List Nat)
    (dataLen pos : Nat) (h : (c.streams.map Prod.fst).Nodup) :
    ((fatExtend c name dataLen pos).streams.map Prod.fst).Nodup := by
  unfold fatExtend
  exact nodup_setStream _ _ h

theorem nodup_keys_appendActionWrite (flags off : Nat) (name data : List Nat)
    (c : CommitLog) (h : (c.streams.map Prod.fst).Nodup) :
    ((appendActionWrite flags off name data c).1.streams.map Prod.fst).Nodup := by
  unfold appendActionWrite
  have h1 := nodup_keys_actionWrite flags off name c h
  rcases hA : actionWrite flags off name c with ⟨c1, n1, ok1⟩
  rw [hA] at h1
  have h2 : ∀ w2 : Writer, ((fatExtend { c1 with w := w2 } name data.length
      ({ c1 with w := w2 }.size + (n1 + 4))).streams.map Prod.fst).Nodup :=
    fun w2 => nodup_keys_fatExtend _ _ _ _ h1
  cases ok1
  · exact h1
  · rcases hW : c1.w.write (u32le data.length) with ⟨w2, ok2⟩
    simp only [hW]
    cases ok2
    · exact h1
    · rcases hV : (fatExtend { c1 with w := w2 } name data.length
          ({ c1 with w := w2 }.size + (n1 + 4))).w.write data with ⟨w4, ok4⟩
      simp only [hV]
      cases ok4 <;> exact h2 w2

theorem nodup_keys_pollardActionWrite (flags off : Nat) (name : List Nat)
    (p : Nat) (c : CommitLog) (h : (c.streams.map Prod.fst).Nodup) :
    ((pollardActionWrite flags off name p c).1.streams.map Prod.fst).Nodup := by
  unfold pollardActionWrite
  have h1 := nodup_keys_actionWrite flags off name c h
  rcases hA : actionWrite flags off name c with ⟨c1, n1, ok1⟩
  rw [hA] at h1
  cases ok1
  · exact h1
  · rcases hW : c1.w.write (u64le p) with ⟨w2, ok2⟩
    simp only [hW]
    cases ok2
    · exact h1
    · exact nodup_setStream _ _ h1

theorem nodup_keys_commit (c : CommitLog) (a : Action)
    (h : (c.streams.map Prod.fst).Nodup) :
    (((commit c a).1.streams).map Prod.fst).Nodup := by
  unfold commit
  split
  · exact h
  · cases a with
    | app name off data =>
      have h1 := nodup_keys_appendActionWrite flagAppend off name data c h
      simp only []
      rcases hA : appendActionWrite flagAppend off name data c with ⟨c', n, ok⟩
      rw [hA] at h1
      cases ok <;> exact h1
    | pol name off p =>
      have h1 := nodup_keys_pollardActionWrite flagPollard off name p c h
      simp only []
      rcases hA : pollardActionWrite flagPollard off name p c with ⟨c', n, ok⟩
      rw [hA] at h1
      cases ok <;> exact h1

theorem nodup_keys_runCommits (acts : List Action) :
    ((runCommits freshLog acts).streams.map Prod.fst).Nodup := by
  have h : ∀ c, ((c.streams.map Prod.fst)).Nodup →
      ((runCommits c acts).streams.map Prod.fst).Nodup := by
    induction acts with
    | nil => intro c hc; exact hc
    | cons a r ih =>
      intro c hc
      exact ih _ (nodup_keys_commit c a hc)
  exact h freshLog (by simp [freshLog])


/-- In-order traversal of the median-split tree recovers the list. -/
theorem inorder_dictTree : ∀ l : List (List Nat), inorder (dictTree l) = l := by
  have key : ∀ n (l : List (List Nat)), l.length ≤ n →
      inorder (dictTree l) = l := by
    intro n
    induction n with
    | zero =>
      intro l hl
      have h0 : l = [] := List.length_eq_zero.mp (Nat.le_zero.mp hl)
      subst h0
      rw [dictTree]
      rfl
    | succ n ih =>
      intro l hl
      rw [dictTree]
      by_cases h0 : l.length = 0
      · simp only [dif_pos h0]
        have : l = [] := List.length_eq_zero.mp h0
        subst this
        rfl
      · simp only [dif_neg h0, inorder]
        rw [ih _ (by simp only [List.length_take]; omega),
            ih _ (by simp only [List.length_drop]; omega)]
        have hmid : l.length / 2 < l.length := by omega
        rw [List.getD_eq_getElem l [] hmid]
        conv_rhs => rw [← List.take_append_drop (l.length / 2) l]
        congr 1
        rw [List.drop_eq_getElem_cons hmid]
  exact fun l => key l.length l le_rfl


/-- Claim C9: for every log built by commits, the in-order traversal of the
flat BST that `finalize` serializes (the median-split tree over the sorted
stream names, `dictTree`) yields the names in strictly increasing
byte-lexicographic order. -/
theorem dict_inorder_strictly_sorted (acts : List Action) :
    List.Pairwise (fun a b => lexLt a b = true)
      (inorder (dictTree (sortNames
        ((runCommits freshLog acts).streams.map Prod.fst)))) := by
  rw [inorder_dictTree]
  have hsorted : List.Sorted nameLe
      (sortNames ((runCommits freshLog acts).streams.map Prod.fst)) :=
    List.sorted_insertionSort nameLe _
  have hnodup : (sortNames
      ((runCommits freshLog acts).streams.map Prod.fst)).Nodup :=
    (List.perm_insertionSort nameLe _).nodup_iff.mpr (nodup_keys_runCommits acts)
  have hboth := List.Pairwise.and hsorted hnodup
  refine hboth.imp ?_
  intro a b hab
  obtain ⟨hle, hne⟩ := hab
  rcases hle with hlt | heq
  · exact hlt
  · exact absurd heq hne

/-! # Claim C1 — recovery round trip: supporting lemmas -/

/-! Parsing primitive round trips. -/

theorem readFull_append (xs rest : List Nat) :
    readFull xs.length (xs ++ rest) = some (xs, rest) := by
  unfold readFull
  rw [if_pos (by simp)]
  rw [List.take_left, List.drop_left]

theorem readFull_of_length {n : Nat} (xs rest : List Nat) (h : xs.length = n) :
    readFull n (xs ++ rest) = some (xs, rest) := by
  subst h
  exact readFull_append xs rest

theorem readString0_append {name : List Nat} (rest : List Nat)
    (h : ∀ b ∈ name, b ≠ 0) :
    readString0 (name ++ 0 :: rest) = some (name, rest) := by
  induction name with
  | nil => simp [readString0]
  | cons b bs ih =>
    have hb : b ≠ 0 := h b (by simp)
    simp only [List.cons_append, readString0, if_neg hb]
    rw [show bs.append (0 :: rest) = bs ++ 0 :: rest from rfl,
      ih (fun x hx => h x (by simp [hx]))]
    rfl

/-! `setStream` / `lookupStream` interaction. -/

theorem find?_setStream_other {l : List (List Nat × StreamLog)}
    {n q : List Nat} (s : StreamLog) (h : q ≠ n) :
    (setStream l n s).find? (fun p => p.1 = q) =
      l.find? (fun p => p.1 = q) := by
  induction l with
  | nil => simp [setStream, Ne.symm h]
  | cons kv r ih =>
    obtain ⟨k, v⟩ := kv
    by_cases hk : k = n
    · subst hk
      simp only [setStream, if_pos rfl, List.find?]
      have hkq : (decide (k = q)) = false := by
        simp only [decide_eq_false_iff_not]
        exact fun hh => h hh.symm
      simp [hkq]
    · simp only [setStream, if_neg hk, List.find?]
      by_cases hkq : k = q
      · subst hkq
        simp
      · have : (decide (k = q)) = false := by
          simp only [decide_eq_false_iff_not]
          exact hkq
        simp [this, ih]

theorem lookupStream_setStream_self (streams : List (List Nat × StreamLog))
    (n : List Nat) (s : StreamLog) (w' : Writer) (sz : Nat)
    (ft : List FatEntry) (fin : Bool) :
    lookupStream ⟨setStream streams n s, w', sz, ft, fin⟩ n = some s := by
  simp [lookupStream, find?_setStream]

theorem lookupStream_setStream_other (streams : List (List Nat × StreamLog))
    {n q : List Nat} (s : StreamLog) (w' : Writer) (sz : Nat)
    (ft : List FatEntry) (fin : Bool) (c : CommitLog) (h : q ≠ n)
    (hstreams : c.streams = streams) :
    lookupStream ⟨setStream streams n s, w', sz, ft, fin⟩ q =
      lookupStream c q := by
  simp [lookupStream, find?_setStream_other _ h, hstreams]

theorem lookupStream_none_iff (c : CommitLog) (n : List Nat) :
    lookupStream c n = none ↔ n ∉ c.streams.map Prod.fst := by
  rw [lookupStream, Option.map_eq_none', List.find?_eq_none]
  constructor
  · intro h hmem
    obtain ⟨p, hp, hfst⟩ := List.mem_map.mp hmem
    have := h p hp
    simp only [decide_eq_true_eq] at this
    exact this hfst
  · intro h p hp
    simp only [decide_eq_true_eq]
    exact fun hq => h (List.mem_map.mpr ⟨p, hp, hq⟩)

theorem lookup_some_mem {c : CommitLog} {n : List Nat} {s : StreamLog}
    (h : lookupStream c n = some s) : n ∈ c.streams.map Prod.fst := by
  unfold lookupStream at h
  obtain ⟨p, hfind, _⟩ := Option.map_eq_some'.mp h
  have hmem := List.mem_of_find?_eq_some hfind
  have hfst := List.find?_some hfind
  simp only [decide_eq_true_eq] at hfst
  exact List.mem_map.mpr ⟨p, hmem, hfst⟩

theorem length_setStream_of_mem {l : List (List Nat × StreamLog)}
    {n : List Nat} (s : StreamLog) (h : n ∈ l.map Prod.fst) :
    (setStream l n s).length = l.length := by
  have := keys_setStream l n s
  rw [if_pos h] at this
  have h1 : ((setStream l n s).map Prod.fst).length =
      (l.map Prod.fst).length := by rw [this]
  simpa using h1

theorem length_setStream_of_not_mem {l : List (List Nat × StreamLog)}
    {n : List Nat} (s : StreamLog) (h : n ∉ l.map Prod.fst) :
    (setStream l n s).length = l.length + 1 := by
  have := keys_setStream l n s
  rw [if_neg h] at this
  have h1 : ((setStream l n s).map Prod.fst).length =
      (l.map Prod.fst ++ [n]).length := by rw [this]
  simpa using h1

theorem namesInv_replace {c : CommitLog} {name : List Nat} {s s' : StreamLog}
    (hinv : namesInv c) (hl : lookupStream c name = some s)
    (hnum : s'.number = s.number) (w' : Writer) (sz : Nat)
    (ft : List FatEntry) (fin : Bool) :
    namesInv ⟨setStream c.streams name s', w', sz, ft, fin⟩ := by
  intro q t hq
  have hmem := lookup_some_mem hl
  have hkeys : (setStream c.streams name s').map Prod.fst =
      c.streams.map Prod.fst := by
    rw [keys_setStream, if_pos hmem]
  have hlen : (setStream c.streams name s').length = c.streams.length :=
    length_setStream_of_mem s' hmem
  by_cases hqn : q = name
  · subst hqn
    rw [lookupStream_setStream_self] at hq
    obtain rfl : s' = t := by simpa using hq
    obtain ⟨hn1, hn2⟩ := hinv q s hl
    refine ⟨?_, ?_⟩
    · simp only [hlen, hnum]
      exact hn1
    · simp only [hkeys, hnum]
      exact hn2
  · rw [lookupStream_setStream_other c.streams s' w' sz ft fin c hqn rfl] at hq
    obtain ⟨hn1, hn2⟩ := hinv q t hq
    refine ⟨by simp only [hlen]; exact hn1, by simp only [hkeys]; exact hn2⟩

theorem namesInv_insert {c : CommitLog} {name : List Nat}
    (hinv : namesInv c) (hl : lookupStream c name = none)
    (hcnt : c.streams.length < 2 ^ 16) (off : Nat) (w' : Writer) (sz : Nat)
    (ft : List FatEntry) (fin : Bool) :
    namesInv ⟨setStream c.streams name
      ⟨c.streams.length % 2 ^ 16, 0, 0, off, off, 0⟩, w', sz, ft, fin⟩ := by
  intro q t hq
  have hnotmem := (lookupStream_none_iff c name).mp hl
  have hkeys : (setStream c.streams name
      ⟨c.streams.length % 2 ^ 16, 0, 0, off, off, 0⟩).map Prod.fst =
      c.streams.map Prod.fst ++ [name] := by
    rw [keys_setStream, if_neg hnotmem]
  have hlen : (setStream c.streams name
      ⟨c.streams.length % 2 ^ 16, 0, 0, off, off, 0⟩).length =
      c.streams.length + 1 :=
    length_setStream_of_not_mem _ hnotmem
  have hklen : (c.streams.map Prod.fst).length = c.streams.length := by simp
  by_cases hqn : q = name
  · subst hqn
    rw [lookupStream_setStream_self] at hq
    obtain rfl : (⟨c.streams.length % 2 ^ 16, 0, 0, off, off, 0⟩ : StreamLog) = t := by
      simpa using hq
    have hmod : c.streams.length % 2 ^ 16 = c.streams.length :=
      Nat.mod_eq_of_lt hcnt
    refine ⟨?_, ?_⟩
    · show c.streams.length % 2 ^ 16 < (setStream c.streams q
        ⟨c.streams.length % 2 ^ 16, 0, 0, off, off, 0⟩).length
      rw [hlen]
      omega
    · show ((setStream c.streams q
          ⟨c.streams.length % 2 ^ 16, 0, 0, off, off, 0⟩).map Prod.fst).getD
          (c.streams.length % 2 ^ 16) [] = q
      rw [hkeys, hmod, List.getD_append_right _ _ _ _ (by omega)]
      simp [hklen]
  · rw [lookupStream_setStream_other c.streams _ w' sz ft fin c hqn rfl] at hq
    obtain ⟨hn1, hn2⟩ := hinv q t hq
    have hklt : t.number < (c.streams.map Prod.fst).length := by omega
    refine ⟨?_, ?_⟩
    · show t.number < (setStream c.streams name
        ⟨c.streams.length % 2 ^ 16, 0, 0, off, off, 0⟩).length
      rw [hlen]
      omega
    · show ((setStream c.streams name
          ⟨c.streams.length % 2 ^ 16, 0, 0, off, off, 0⟩).map Prod.fst).getD
          t.number [] = q
      rw [hkeys, List.getD_append _ _ _ _ (by omega)]
      exact hn2

theorem namesInv_congr {c c' : CommitLog} (h : c.streams = c'.streams)
    (hi : namesInv c) : namesInv c' := by
  intro q t hq
  have : lookupStream c q = some t := by
    rw [lookupStream, h]
    exact hq
  obtain ⟨h1, h2⟩ := hi q t this
  rw [← h]
  exact ⟨h1, h2⟩

theorem lookupStream_stripW (c : CommitLog) (n : List Nat) :
    lookupStream (stripW c) n = lookupStream c n := rfl

theorem namesInv_fatExtend {c : CommitLog} {name : List Nat} {s : StreamLog}
    (hl : lookupStream c name = some s) (hinv : namesInv c) (dl pos : Nat) :
    namesInv (fatExtend c name dl pos) := by
  unfold fatExtend
  simp only [hl, Option.getD_some]
  by_cases hsl : s.length = 0
  · simp only [if_pos hsl]
    refine namesInv_replace hinv hl ?_ _ _ _ _
    rfl
  · simp only [if_neg hsl]
    refine namesInv_replace hinv hl ?_ _ _ _ _
    rfl

theorem keys_fatExtend {c : CommitLog} {name : List Nat} {s : StreamLog}
    (hl : lookupStream c name = some s) (dl pos : Nat) :
    (fatExtend c name dl pos).streams.map Prod.fst =
      c.streams.map Prod.fst := by
  unfold fatExtend
  simp only [hl, Option.getD_some]
  rw [keys_setStream, if_pos (lookup_some_mem hl)]

set_option maxHeartbeats 2000000 in
/-- One successful append commit, described the way the replay loop sees it:
the record bytes `B` are appended to the file, they parse back to the same
action, and `appendAction.recover` applies the same state mutation with the
same byte count. -/
theorem commit_append_step (c : CommitLog) (name data : List Nat) (off : Nat)
    (hbud : c.w.budget = none) (hfin : c.finalized = false)
    (hwfn : wfName name) (hoff : off < 2 ^ 64) (hdata : data.length < 2 ^ 32)
    (hnames : namesInv c) (hcnt : c.streams.length < 2 ^ 16) :
    ∃ B offP,
      B.headD 0 &&& flagMask = flagAppend ∧ B ≠ [] ∧
      (∀ rest, appendActionRead ⟨B ++ rest, c.streams.map Prod.fst⟩ =
        .ok ((B.headD 0, offP, name, data),
          ⟨rest, (appendActionRecover offP name data (stripW c)).1.streams.map
            Prod.fst⟩)) ∧
      (appendActionRecover offP name data (stripW c)).2 = B.length ∧
      commit c (.app name off data) =
        ({ (appendActionRecover offP name data (stripW c)).1 with
            w := ⟨c.w.file ++ B, none⟩, size := c.size + B.length }, none) ∧
      namesInv (appendActionRecover offP name data (stripW c)).1 ∧
      c.streams.length ≤
        (appendActionRecover offP name data (stripW c)).1.streams.length := by
  have hklen : (c.streams.map Prod.fst).length = c.streams.length := by simp
  cases hl : lookupStream c name with
  | some s =>
    have hl' : lookupStream (stripW c) name = some s :=
      (lookupStream_stripW c name).trans hl
    obtain ⟨hn1, hn2⟩ := hnames name s hl
    have hmem : name ∈ c.streams.map Prod.fst := lookup_some_mem hl
    have hrecstreams : (appendActionRecover 0 name data (stripW c)).1.streams.map
        Prod.fst = c.streams.map Prod.fst := by
      simp only [appendActionRecover, actionRecover, hl']
      exact keys_fatExtend hl' _ _
    have hnum : leVal (u16le s.number) = s.number := by
      rw [u16le, leVal_leBytes, show (256 : Nat) ^ 2 = 2 ^ 16 by norm_num,
        Nat.mod_eq_of_lt (by omega)]
    have hdlen : leVal (u32le data.length) = data.length := by
      rw [u32le, leVal_leBytes, show (256 : Nat) ^ 4 = 2 ^ 32 by norm_num,
        Nat.mod_eq_of_lt hdata]
    refine ⟨flagAppend % 256 :: (u16le s.number ++ (u32le data.length ++ data)),
      0, by rw [List.headD_cons]; decide, by simp, ?_, ?_, ?_, ?_, ?_⟩
    · -- parse round trip
      intro rest
      rw [appendActionRead, actionRead]
      simp only [List.cons_append, List.append_assoc]
      rw [if_neg (by decide)]
      rw [readFull_of_length (u16le s.number) _ (by simp [u16le, leBytes_length])]
      simp only [hnum, hklen, Nat.mod_eq_of_lt hcnt]
      rw [if_neg (by omega), hn2]
      simp only []
      rw [readFull_of_length (u32le data.length) _ (by simp [u32le, leBytes_length])]
      simp only [hdlen]
      rw [readFull_append]
      simp only [hrecstreams, List.headD_cons]
    · -- byte count agreement
      simp only [appendActionRecover, actionRecover, hl']
      simp [u16le, u32le, leBytes_length]
      omega
    · -- the commit itself
      have hlf : (c.streams.find? (fun p => p.1 = name)).map Prod.snd = some s := hl
      simp only [commit, hfin, Bool.false_eq_true, if_false, appendActionWrite,
        actionWrite, lookupStream, hlf, Writer.write, hbud, appendActionRecover,
        actionRecover, Option.getD_some, Bool.not_true, stripW, fatExtend,
        if_true]
      simp only [Prod.mk.injEq, CommitLog.mk.injEq, Writer.mk.injEq,
        List.cons_append, List.append_assoc, List.length_cons,
        List.length_append, u16le, u32le, leBytes_length]
      all_goals and_intros <;> first | rfl | trivial | omega
    · -- namesInv preserved
      simp only [appendActionRecover, actionRecover, hl']
      exact namesInv_fatExtend hl' hnames _ _
    · -- stream count monotone
      have h1 : ((appendActionRecover 0 name data (stripW c)).1.streams.map
          Prod.fst).length = (c.streams.map Prod.fst).length := by
        rw [hrecstreams]
      simp only [List.length_map] at h1
      omega
  | none =>
    have hl' : lookupStream (stripW c) name = none :=
      (lookupStream_stripW c name).trans hl
    have hnotmem : name ∉ c.streams.map Prod.fst :=
      (lookupStream_none_iff c name).mp hl
    have hoffv : leVal (u64le off) = off := by
      rw [u64le, leVal_leBytes, show (256 : Nat) ^ 8 = 2 ^ 64 by norm_num,
        Nat.mod_eq_of_lt hoff]
    have hdlen : leVal (u32le data.length) = data.length := by
      rw [u32le, leVal_leBytes, show (256 : Nat) ^ 4 = 2 ^ 32 by norm_num,
        Nat.mod_eq_of_lt hdata]
    have hlf : (c.streams.find? (fun p => p.1 = name)).map Prod.snd = none := hl
    have hself : lookupStream ⟨setStream c.streams name
        ⟨c.streams.length % 2 ^ 16, 0, 0, off, off, 0⟩,
        { file := [], budget := none }, c.size, c.fat, false⟩ name =
        some ⟨c.streams.length % 2 ^ 16, 0, 0, off, off, 0⟩ :=
      lookupStream_setStream_self _ _ _ _ _ _ _
    have hrecstreams : (appendActionRecover off name data (stripW c)).1.streams.map
        Prod.fst = c.streams.map Prod.fst ++ [name] := by
      simp only [appendActionRecover, actionRecover, lookupStream, hlf, stripW,
        hfin]
      rw [keys_fatExtend hself _ _]
      simp only [keys_setStream, if_neg hnotmem]
    refine ⟨(flagAppend ||| flagWithName) % 256 ::
        (u64le off ++ (name ++ (0 :: (u32le data.length ++ data)))),
      off, by rw [List.headD_cons]; decide, by simp, ?_, ?_, ?_, ?_, ?_⟩
    · -- parse round trip
      intro rest
      rw [appendActionRead, actionRead]
      simp only [List.cons_append, List.append_assoc]
      rw [if_pos (by decide)]
      rw [readFull_of_length (u64le off) _ (by simp [u64le, leBytes_length])]
      simp only [hoffv]
      rw [readString0_append _ (fun b hb => (hwfn b hb).2)]
      simp only []
      rw [readFull_of_length (u32le data.length) _ (by simp [u32le, leBytes_length])]
      simp only [hdlen]
      rw [readFull_append]
      simp only [hrecstreams, List.headD_cons]
    · -- byte count agreement
      simp only [appendActionRecover, actionRecover, lookupStream, hlf, stripW,
        hfin]
      simp [u64le, u32le, leBytes_length]
      omega
    · -- the commit itself
      simp only [commit, hfin, Bool.false_eq_true, if_false, appendActionWrite,
        actionWrite, lookupStream, hlf, Writer.write, hbud, appendActionRecover,
        actionRecover, Option.getD_some, Bool.not_true, stripW, fatExtend,
        if_true, find?_setStream, Option.map_some']
      simp only [Prod.mk.injEq, CommitLog.mk.injEq, Writer.mk.injEq,
        List.cons_append, List.append_assoc, List.length_cons,
        List.length_append, u64le, u32le, leBytes_length]
      all_goals and_intros <;> first | rfl | trivial | omega
    · -- namesInv preserved
      simp only [appendActionRecover, actionRecover, lookupStream, hlf, stripW,
        hfin]
      exact namesInv_fatExtend hself
        (namesInv_insert hnames hl hcnt off _ _ _ _) _ _
    · -- stream count monotone
      have h1 : ((appendActionRecover off name data (stripW c)).1.streams.map
          Prod.fst).length = (c.streams.map Prod.fst ++ [name]).length := by
        rw [hrecstreams]
      simp only [List.length_map, List.length_append, List.length_singleton] at h1
      omega

set_option maxHeartbeats 2000000 in
/-- One successful pollard commit, in the same replay-oriented form as
`commit_append_step`. -/
theorem commit_pollard_step (c : CommitLog) (name : List Nat) (off p : Nat)
    (hbud : c.w.budget = none) (hfin : c.finalized = false)
    (hwfn : wfName name) (hoff : off < 2 ^ 64) (hp : p < 2 ^ 64)
    (hnames : namesInv c) (hcnt : c.streams.length < 2 ^ 16) :
    ∃ B offP,
      B.headD 0 &&& flagMask = flagPollard ∧ B ≠ [] ∧
      (∀ rest, pollardActionRead ⟨B ++ rest, c.streams.map Prod.fst⟩ =
        .ok ((B.headD 0, offP, name, p),
          ⟨rest, (pollardActionRecover offP name p (stripW c)).1.streams.map
            Prod.fst⟩)) ∧
      (pollardActionRecover offP name p (stripW c)).2 = B.length ∧
      commit c (.pol name off p) =
        ({ (pollardActionRecover offP name p (stripW c)).1 with
            w := ⟨c.w.file ++ B, none⟩, size := c.size + B.length }, none) ∧
      namesInv (pollardActionRecover offP name p (stripW c)).1 ∧
      c.streams.length ≤
        (pollardActionRecover offP name p (stripW c)).1.streams.length := by
  have hklen : (c.streams.map Prod.fst).length = c.streams.length := by simp
  have hpv : leVal (u64le p) = p := by
    rw [u64le, leVal_leBytes, show (256 : Nat) ^ 8 = 2 ^ 64 by norm_num,
      Nat.mod_eq_of_lt hp]
  cases hl : lookupStream c name with
  | some s =>
    have hl' : lookupStream (stripW c) name = some s :=
      (lookupStream_stripW c name).trans hl
    obtain ⟨hn1, hn2⟩ := hnames name s hl
    have hmem : name ∈ c.streams.map Prod.fst := lookup_some_mem hl
    have hnum : leVal (u16le s.number) = s.number := by
      rw [u16le, leVal_leBytes, show (256 : Nat) ^ 2 = 2 ^ 16 by norm_num,
        Nat.mod_eq_of_lt (by omega)]
    have hlf : (c.streams.find? (fun q => q.1 = name)).map Prod.snd = some s := hl
    have hrecstreams : (pollardActionRecover 0 name p (stripW c)).1.streams.map
        Prod.fst = c.streams.map Prod.fst := by
      simp only [pollardActionRecover, actionRecover, lookupStream, hlf,
        Option.getD_some, stripW, hfin]
      rw [keys_setStream, if_pos hmem]
    refine ⟨flagPollard % 256 :: (u16le s.number ++ u64le p),
      0, by rw [List.headD_cons]; decide, by simp, ?_, ?_, ?_, ?_, ?_⟩
    · intro rest
      rw [pollardActionRead, actionRead]
      simp only [List.cons_append, List.append_assoc]
      rw [if_neg (by decide)]
      rw [readFull_of_length (u16le s.number) _ (by simp [u16le, leBytes_length])]
      simp only [hnum, hklen, Nat.mod_eq_of_lt hcnt]
      rw [if_neg (by omega), hn2]
      simp only []
      rw [readFull_of_length (u64le p) _ (by simp [u64le, leBytes_length])]
      simp only [hpv, hrecstreams, List.headD_cons]
    · simp only [pollardActionRecover, actionRecover, lookupStream, hlf,
        Option.getD_some, stripW, hfin]
      simp [u16le, u64le, leBytes_length]
    · simp only [commit, hfin, Bool.false_eq_true, if_false, pollardActionWrite,
        actionWrite, lookupStream, hlf, Writer.write, hbud, pollardActionRecover,
        actionRecover, Option.getD_some, Bool.not_true, stripW, if_true,
        find?_setStream, Option.map_some']
      simp only [Prod.mk.injEq, CommitLog.mk.injEq, Writer.mk.injEq,
        List.cons_append, List.append_assoc, List.length_cons,
        List.length_append, u16le, u64le, leBytes_length]
    · simp only [pollardActionRecover, actionRecover, lookupStream, hlf,
        Option.getD_some, stripW, hfin]
      refine namesInv_replace hnames hl ?_ _ _ _ _
      rfl
    · have h1 : ((pollardActionRecover 0 name p (stripW c)).1.streams.map
          Prod.fst).length = (c.streams.map Prod.fst).length := by
        rw [hrecstreams]
      simp only [List.length_map] at h1
      omega
  | none =>
    have hl' : lookupStream (stripW c) name = none :=
      (lookupStream_stripW c name).trans hl
    have hnotmem : name ∉ c.streams.map Prod.fst :=
      (lookupStream_none_iff c name).mp hl
    have hoffv : leVal (u64le off) = off := by
      rw [u64le, leVal_leBytes, show (256 : Nat) ^ 8 = 2 ^ 64 by norm_num,
        Nat.mod_eq_of_lt hoff]
    have hlf : (c.streams.find? (fun q => q.1 = name)).map Prod.snd = none := hl
    have hself : lookupStream ⟨setStream c.streams name
        ⟨c.streams.length % 2 ^ 16, 0, 0, off, off, 0⟩,
        { file := [], budget := none }, c.size, c.fat, false⟩ name =
        some ⟨c.streams.length % 2 ^ 16, 0, 0, off, off, 0⟩ :=
      lookupStream_setStream_self _ _ _ _ _ _ _
    have hrecstreams : (pollardActionRecover off name p (stripW c)).1.streams.map
        Prod.fst = c.streams.map Prod.fst ++ [name] := by
      simp only [pollardActionRecover, actionRecover, lookupStream, hlf, stripW,
        hfin, Option.getD_some, find?_setStream, Option.map_some']
      rw [keys_setStream]
      rw [if_pos (by rw [keys_setStream, if_neg hnotmem]; simp)]
      rw [keys_setStream, if_neg hnotmem]
    refine ⟨(flagPollard ||| flagWithName) % 256 ::
        (u64le off ++ (name ++ (0 :: u64le p))),
      off, by rw [List.headD_cons]; decide, by simp, ?_, ?_, ?_, ?_, ?_⟩
    · intro rest
      rw [pollardActionRead, actionRead]
      simp only [List.cons_append, List.append_assoc]
      rw [if_pos (by decide)]
      rw [readFull_of_length (u64le off) _ (by simp [u64le, leBytes_length])]
      simp only [hoffv]
      rw [readString0_append _ (fun b hb => (hwfn b hb).2)]
      simp only []
      rw [readFull_of_length (u64le p) _ (by simp [u64le, leBytes_length])]
      simp only [hpv, hrecstreams, List.headD_cons]
    · simp only [pollardActionRecover, actionRecover, lookupStream, hlf, stripW,
        hfin]
      simp [u64le, leBytes_length]
      omega
    · simp only [commit, hfin, Bool.false_eq_true, if_false, pollardActionWrite,
        actionWrite, lookupStream, hlf, Writer.write, hbud, pollardActionRecover,
        actionRecover, Option.getD_some, Bool.not_true, stripW, if_true,
        find?_setStream, Option.map_some']
      simp only [Prod.mk.injEq, CommitLog.mk.injEq, Writer.mk.injEq,
        List.cons_append, List.append_assoc, List.length_cons,
        List.length_append, u64le, leBytes_length]
      all_goals and_intros <;> first | rfl | trivial | omega
    · simp only [pollardActionRecover, actionRecover, lookupStream, hlf, stripW,
        hfin, Option.getD_some, find?_setStream, Option.map_some']
      refine namesInv_replace (namesInv_insert hnames hl hcnt off
        ⟨[], none⟩ c.size c.fat false) hself ?_ _ _ _ _
      rfl
    · have h1 : ((pollardActionRecover off name p (stripW c)).1.streams.map
          Prod.fst).length = (c.streams.map Prod.fst ++ [name]).length := by
        rw [hrecstreams]
      simp only [List.length_map, List.length_append, List.length_singleton] at h1
      omega
theorem runCommits_cons (c : CommitLog) (a : Action) (acts : List Action) :
    runCommits c (a :: acts) = runCommits (commit c a).1 acts := rfl

theorem appendActionRecover_fields (o : Nat) (n d : List Nat) (c : CommitLog) :
    (appendActionRecover o n d c).1.w = c.w ∧
    (appendActionRecover o n d c).1.finalized = c.finalized ∧
    (appendActionRecover o n d c).1.size = c.size := by
  unfold appendActionRecover actionRecover fatExtend
  cases lookupStream c n <;> simp

theorem pollardActionRecover_fields (o : Nat) (n : List Nat) (p : Nat)
    (c : CommitLog) :
    (pollardActionRecover o n p c).1.w = c.w ∧
    (pollardActionRecover o n p c).1.finalized = c.finalized ∧
    (pollardActionRecover o n p c).1.size = c.size := by
  unfold pollardActionRecover actionRecover
  cases lookupStream c n <;> simp

theorem streams_length_le_setStream (l : List (List Nat × StreamLog))
    (n : List Nat) (s : StreamLog) : l.length ≤ (setStream l n s).length := by
  by_cases h : n ∈ l.map Prod.fst
  · rw [length_setStream_of_mem s h]
  · rw [length_setStream_of_not_mem s h]
    omega

theorem actionWrite_streams_len (flags off : Nat) (name : List Nat)
    (c : CommitLog) :
    c.streams.length ≤ (actionWrite flags off name c).1.streams.length := by
  unfold actionWrite
  cases hl : lookupStream c name with
  | some s => simp only [hl]; exact le_rfl
  | none =>
    simp only [hl]
    rcases hw : c.w.write ((flags ||| flagWithName) % 256 :: u64le off) with ⟨w1, ok1⟩
    simp only [hw]
    cases ok1
    · exact streams_length_le_setStream _ _ _
    · rcases hw2 : w1.write name with ⟨w2, ok2⟩
      simp only [hw2]
      cases ok2
      · exact streams_length_le_setStream _ _ _
      · rcases hw3 : w2.write [0] with ⟨w3, ok3⟩
        simp only [hw3]
        cases ok3 <;> exact streams_length_le_setStream _ _ _

theorem fatExtend_streams_len (c : CommitLog) (name : List Nat)
    (dataLen pos : Nat) :
    c.streams.length ≤ (fatExtend c name dataLen pos).streams.length := by
  unfold fatExtend
  exact streams_length_le_setStream _ _ _

theorem appendActionWrite_streams_len (flags off : Nat) (name data : List Nat)
    (c : CommitLog) :
    c.streams.length ≤
      (appendActionWrite flags off name data c).1.streams.length := by
  unfold appendActionWrite
  have h1 := actionWrite_streams_len flags off name c
  rcases hA : actionWrite flags off name c with ⟨c1, n1, ok1⟩
  rw [hA] at h1
  have h2 : ∀ w2 : Writer, c1.streams.length ≤
      (fatExtend { c1 with w := w2 } name data.length
        ({ c1 with w := w2 }.size + (n1 + 4))).streams.length :=
    fun w2 => fatExtend_streams_len { c1 with w := w2 } name data.length
      ({ c1 with w := w2 }.size + (n1 + 4))
  cases ok1
  · exact h1
  · rcases hW : c1.w.write (u32le data.length) with ⟨w2, ok2⟩
    simp only [hW]
    cases ok2
    · exact h1
    · rcases hV : (fatExtend { c1 with w := w2 } name data.length
          ({ c1 with w := w2 }.size + (n1 + 4))).w.write data with ⟨w4, ok4⟩
      simp only [hV]
      cases ok4 <;> exact h1.trans (h2 w2)

theorem pollardActionWrite_streams_len (flags off : Nat) (name : List Nat)
    (p : Nat) (c : CommitLog) :
    c.streams.length ≤
      (pollardActionWrite flags off name p c).1.streams.length := by
  unfold pollardActionWrite
  have h1 := actionWrite_streams_len flags off name c
  rcases hA : actionWrite flags off name c with ⟨c1, n1, ok1⟩
  rw [hA] at h1
  cases ok1
  · exact h1
  · rcases hW : c1.w.write (u64le p) with ⟨w2, ok2⟩
    simp only [hW]
    cases ok2
    · exact h1
    · exact h1.trans (streams_length_le_setStream _ _ _)

/-- The stream count never decreases across a commit (any branch). -/
theorem streams_length_le_commit (c : CommitLog) (a : Action) :
    c.streams.length ≤ (commit c a).1.streams.length := by
  unfold commit
  split
  · exact le_rfl
  · cases a with
    | app name off data =>
      have h1 := appendActionWrite_streams_len flagAppend off name data c
      simp only []
      rcases hA : appendActionWrite flagAppend off name data c with ⟨c', n, ok⟩
      rw [hA] at h1
      cases ok <;> exact h1
    | pol name off p =>
      have h1 := pollardActionWrite_streams_len flagPollard off name p c
      simp only []
      rcases hA : pollardActionWrite flagPollard off name p c with ⟨c', n, ok⟩
      rw [hA] at h1
      cases ok <;> exact h1

theorem streams_length_le_runCommits (acts : List Action) (c : CommitLog) :
    c.streams.length ≤ (runCommits c acts).streams.length := by
  induction acts generalizing c with
  | nil => exact le_rfl
  | cons a r ih =>
    rw [runCommits_cons]
    exact (streams_length_le_commit c a).trans (ih _)

/-! # Claim C1 — recovery round trip -/

theorem head?_append_of_ne_nil {B : List Nat} (d : List Nat) (h : B ≠ []) :
    (B ++ d).head? = some (B.headD 0) := by
  cases B with
  | nil => exact absurd rfl h
  | cons b bs => rfl

theorem step_state_eq (X : CommitLog) (f : List Nat) (sz n : Nat)
    (hw : X.w = ⟨[], none⟩) (hs : X.size = sz) :
    { X with size := X.size + n } =
      stripW { X with w := ⟨f, none⟩, size := sz + n } := by
  obtain ⟨st, wv, szv, ft, fin⟩ := X
  simp only [] at hw hs
  subst hw hs
  rfl

/-- The recovery replay loop rebuilds exactly the in-memory state the
commits produced: starting from any well-formed state `c`, replaying the
bytes the commits appended yields `runCommits c acts` (writer stripped),
consuming all bytes, with the bookkeeping invariants carried along. -/
theorem recoverLoop_replays (acts : List Action) : ∀ c : CommitLog,
    (∀ a ∈ acts, wfAction a) → c.w.budget = none → c.finalized = false →
    namesInv c → c.size = c.w.file.length →
    (runCommits c acts).streams.length < 2 ^ 16 →
    (runCommits c acts).w.budget = none ∧
    (runCommits c acts).finalized = false ∧
    namesInv (runCommits c acts) ∧
    (runCommits c acts).size = (runCommits c acts).w.file.length ∧
    (∃ d, (runCommits c acts).w.file = c.w.file ++ d) ∧
    c.size ≤ (runCommits c acts).size ∧
    recoverLoop (runCommits c acts).size (acts.length + 1) (stripW c)
      ⟨(runCommits c acts).w.file.drop c.w.file.length,
        c.streams.map Prod.fst⟩ =
      .done (stripW (runCommits c acts))
        ⟨[], (runCommits c acts).streams.map Prod.fst⟩ := by
  induction acts with
  | nil =>
    intro c hwf hbud hfin hnames hsync hcnt
    rw [show runCommits c [] = c from rfl]
    refine ⟨hbud, hfin, hnames, hsync, ⟨[], (List.append_nil _).symm⟩,
      le_rfl, ?_⟩
    rw [recoverLoop,
      if_pos (show c.size ≤ (stripW c).size from le_refl c.size),
      List.drop_length]
  | cons a r ih =>
    intro c hwf hbud hfin hnames hsync hcnt
    have hwftail : ∀ x ∈ r, wfAction x :=
      fun x hx => hwf x (List.mem_cons_of_mem _ hx)
    cases a with
    | app name off data =>
      obtain ⟨hwfn, hoff, hdata⟩ := hwf _ (List.mem_cons_self _ _)
      have hcnt_c : c.streams.length < 2 ^ 16 :=
        lt_of_le_of_lt (streams_length_le_runCommits _ c) hcnt
      obtain ⟨B, offP, hflag, hBne, hparse, hn, hcommit, hnamesR, hmonoR⟩ :=
        commit_append_step c name data off hbud hfin hwfn hoff hdata hnames
          hcnt_c
      rcases haR : appendActionRecover offP name data (stripW c) with ⟨cR, nR⟩
      rw [haR] at hparse hn hcommit hnamesR
      simp only [] at hparse hn hcommit hnamesR
      subst hn
      set S : CommitLog :=
        { cR with w := ⟨c.w.file ++ B, none⟩, size := c.size + B.length }
        with hSdef
      have hrun : runCommits c (.app name off data :: r) = runCommits S r := by
        rw [runCommits_cons, hcommit]
      have hflds := appendActionRecover_fields offP name data (stripW c)
      rw [haR] at hflds
      have hwR : cR.w = ⟨[], none⟩ := hflds.1
      have hfinR : cR.finalized = false := hflds.2.1.trans hfin
      have hszR : cR.size = c.size := hflds.2.2
      have hSbud : S.w.budget = none := rfl
      have hSfin : S.finalized = false := hfinR
      have hSnames : namesInv S := namesInv_congr rfl hnamesR
      have hSw : S.w.file = c.w.file ++ B := rfl
      have hSsync : S.size = S.w.file.length := by
        show c.size + B.length = (c.w.file ++ B).length
        rw [List.length_append, hsync]
      rw [hrun] at hcnt
      obtain ⟨hbud', hfin', hinv', hsync', ⟨d, hd⟩, hszmono, hloop⟩ :=
        ih S hwftail hSbud hSfin hSnames hSsync hcnt
      have hB1 : 1 ≤ B.length := List.length_pos.mpr hBne
      have hSsz : S.size = c.size + B.length := rfl
      rw [hSsz] at hszmono
      refine ⟨by rw [hrun]; exact hbud', by rw [hrun]; exact hfin',
        by rw [hrun]; exact hinv', by rw [hrun]; exact hsync',
        ⟨B ++ d, by rw [hrun, hd, hSw, List.append_assoc]⟩,
        by rw [hrun]; omega, ?_⟩
      have hbytes : (runCommits S r).w.file.drop c.w.file.length = B ++ d := by
        rw [hd]
        show (c.w.file ++ B ++ d).drop c.w.file.length = B ++ d
        rw [List.append_assoc]
        exact List.drop_left _ _
      rw [hrun, hbytes]
      simp only [List.length_cons]
      rw [recoverLoop]
      have hguard : ¬ ((runCommits S r).size ≤ (stripW c).size) := by
        show ¬ ((runCommits S r).size ≤ c.size)
        omega
      rw [if_neg hguard]
      have hpeek : peekAction ⟨B ++ d, c.streams.map Prod.fst⟩ =
          some (B.headD 0) := head?_append_of_ne_nil d hBne
      rw [hpeek]
      simp only []
      rw [if_pos hflag, hparse d]
      simp only []
      rw [haR]
      simp only []
      have hstate : { cR with size := cR.size + B.length } = stripW S :=
        step_state_eq cR (c.w.file ++ B) c.size B.length hwR hszR
      rw [hstate]
      have hd' : (runCommits S r).w.file.drop S.w.file.length = d := by
        rw [hd]
        exact List.drop_left _ _
      rw [hd'] at hloop
      exact hloop
    | pol name off p =>
      obtain ⟨hwfn, hoff, hp⟩ := hwf _ (List.mem_cons_self _ _)
      have hcnt_c : c.streams.length < 2 ^ 16 :=
        lt_of_le_of_lt (streams_length_le_runCommits _ c) hcnt
      obtain ⟨B, offP, hflag, hBne, hparse, hn, hcommit, hnamesR, hmonoR⟩ :=
        commit_pollard_step c name off p hbud hfin hwfn hoff hp hnames hcnt_c
      rcases haR : pollardActionRecover offP name p (stripW c) with ⟨cR, nR⟩
      rw [haR] at hparse hn hcommit hnamesR
      simp only [] at hparse hn hcommit hnamesR
      subst hn
      set S : CommitLog :=
        { cR with w := ⟨c.w.file ++ B, none⟩, size := c.size + B.length }
        with hSdef
      have hrun : runCommits c (.pol name off p :: r) = runCommits S r := by
        rw [runCommits_cons, hcommit]
      have hflds := pollardActionRecover_fields offP name p (stripW c)
      rw [haR] at hflds
      have hwR : cR.w = ⟨[], none⟩ := hflds.1
      have hfinR : cR.finalized = false := hflds.2.1.trans hfin
      have hszR : cR.size = c.size := hflds.2.2
      have hSbud : S.w.budget = none := rfl
      have hSfin : S.finalized = false := hfinR
      have hSnames : namesInv S := namesInv_congr rfl hnamesR
      have hSw : S.w.file = c.w.file ++ B := rfl
      have hSsync : S.size = S.w.file.length := by
        show c.size + B.length = (c.w.file ++ B).length
        rw [List.length_append, hsync]
      rw [hrun] at hcnt
      obtain ⟨hbud', hfin', hinv', hsync', ⟨d, hd⟩, hszmono, hloop⟩ :=
        ih S hwftail hSbud hSfin hSnames hSsync hcnt
      have hB1 : 1 ≤ B.length := List.length_pos.mpr hBne
      have hSsz : S.size = c.size + B.length := rfl
      rw [hSsz] at hszmono
      refine ⟨by rw [hrun]; exact hbud', by rw [hrun]; exact hfin',
        by rw [hrun]; exact hinv', by rw [hrun]; exact hsync',
        ⟨B ++ d, by rw [hrun, hd, hSw, List.append_assoc]⟩,
        by rw [hrun]; omega, ?_⟩
      have hbytes : (runCommits S r).w.file.drop c.w.file.length = B ++ d := by
        rw [hd]
        show (c.w.file ++ B ++ d).drop c.w.file.length = B ++ d
        rw [List.append_assoc]
        exact List.drop_left _ _
      rw [hrun, hbytes]
      simp only [List.length_cons]
      rw [recoverLoop]
      have hguard : ¬ ((runCommits S r).size ≤ (stripW c).size) := by
        show ¬ ((runCommits S r).size ≤ c.size)
        omega
      rw [if_neg hguard]
      have hpeek : peekAction ⟨B ++ d, c.streams.map Prod.fst⟩ =
          some (B.headD 0) := head?_append_of_ne_nil d hBne
      rw [hpeek]
      simp only []
      rw [if_neg (by simp only [hflag]; decide), if_pos hflag, hparse d]
      simp only []
      rw [haR]
      simp only []
      have hstate : { cR with size := cR.size + B.length } = stripW S :=
        step_state_eq cR (c.w.file ++ B) c.size B.length hwR hszR
      rw [hstate]
      have hd' : (runCommits S r).w.file.drop S.w.file.length = d := by
        rw [hd]
        exact List.drop_left _ _
      rw [hd'] at hloop
      exact hloop
theorem recover_of_done (fuel : Nat) (file : List Nat) (c : CommitLog)
    (r : RState)
    (h : recoverLoop file.length fuel freshLog ⟨file, []⟩ = .done c r)
    (hsz : c.size = file.length) :
    recover fuel file = some ({ c with w := ⟨file, none⟩ }, file, none) := by
  unfold recover
  simp only []
  rw [h]
  simp only []
  rw [if_neg (not_not_intro hsz)]

/-- Claim C1: recovery round trip. For any sequence of well-formed commits
applied to a fresh log (all of which succeed: the writer never fails and
the log is never finalized), re-opening the written file with `recover`
returns without error, reproduces the original file and the exact
in-memory state, and hence answers every `streamRange` and `readStream`
query exactly as the original log did before close. -/
theorem recovery_round_trip (acts : List Action)
    (hwf : ∀ a ∈ acts, wfAction a)
    (hcnt : (runCommits freshLog acts).streams.length < 2 ^ 16) :
    ∃ c', recover (acts.length + 1) (runCommits freshLog acts).w.file =
        some (c', (runCommits freshLog acts).w.file, none) ∧
      c' = runCommits freshLog acts ∧
      (∀ name, streamRange c' name =
        streamRange (runCommits freshLog acts) name) ∧
      (∀ name offset bufLen fuel, readStream c' name offset bufLen fuel =
        readStream (runCommits freshLog acts) name offset bufLen fuel) := by
  have hnamesF : namesInv freshLog := by
    intro name s h
    simp [lookupStream, freshLog] at h
  obtain ⟨hbud', hfin', hinv', hsync', hfile', hsz', hloop⟩ :=
    recoverLoop_replays acts freshLog hwf rfl rfl hnamesF rfl hcnt
  have hloop' : recoverLoop (runCommits freshLog acts).w.file.length
      (acts.length + 1) freshLog ⟨(runCommits freshLog acts).w.file, []⟩ =
      .done (stripW (runCommits freshLog acts))
        ⟨[], (runCommits freshLog acts).streams.map Prod.fst⟩ := by
    rw [← hsync']
    exact hloop
  have hrec := recover_of_done (acts.length + 1)
    (runCommits freshLog acts).w.file (stripW (runCommits freshLog acts))
    ⟨[], (runCommits freshLog acts).streams.map Prod.fst⟩ hloop'
    (show (stripW (runCommits freshLog acts)).size =
      (runCommits freshLog acts).w.file.length from hsync')
  have hwX : (⟨(runCommits freshLog acts).w.file, none⟩ : Writer) =
      (runCommits freshLog acts).w := by
    rw [← hbud']
  rw [hwX] at hrec
  refine ⟨runCommits freshLog acts, ?_, rfl, fun name => rfl,
    fun name offset bufLen fuel => rfl⟩
  rw [hrec]
  rfl

/-- Witness for C1 at a concrete three-commit history (two appends on two
streams and one pollard). -/
theorem recovery_round_trip_witness :
    (∀ a ∈ [Action.app [115, 49] 0 [72, 105], Action.pol [115, 49] 2 1,
        Action.app [115, 50] 0 [33]], wfAction a) ∧
    (runCommits freshLog [Action.app [115, 49] 0 [72, 105],
        Action.pol [115, 49] 2 1,
        Action.app [115, 50] 0 [33]]).streams.length < 2 ^ 16 ∧
    (∃ c', recover ([Action.app [115, 49] 0 [72, 105],
          Action.pol [115, 49] 2 1, Action.app [115, 50] 0 [33]].length + 1)
        (runCommits freshLog [Action.app [115, 49] 0 [72, 105],
          Action.pol [115, 49] 2 1, Action.app [115, 50] 0 [33]]).w.file =
        some (c', (runCommits freshLog [Action.app [115, 49] 0 [72, 105],
          Action.pol [115, 49] 2 1,
          Action.app [115, 50] 0 [33]]).w.file, none) ∧
      c' = runCommits freshLog [Action.app [115, 49] 0 [72, 105],
          Action.pol [115, 49] 2 1, Action.app [115, 50] 0 [33]] ∧
      (∀ name, streamRange c' name =
        streamRange (runCommits freshLog [Action.app [115, 49] 0 [72, 105],
          Action.pol [115, 49] 2 1, Action.app [115, 50] 0 [33]]) name) ∧
      (∀ name offset bufLen fuel, readStream c' name offset bufLen fuel =
        readStream (runCommits freshLog [Action.app [115, 49] 0 [72, 105],
          Action.pol [115, 49] 2 1, Action.app [115, 50] 0 [33]])
          name offset bufLen fuel)) :=
  ⟨by decide, by decide,
    recovery_round_trip [Action.app [115, 49] 0 [72, 105],
      Action.pol [115, 49] 2 1, Action.app [115, 50] 0 [33]]
      (by decide) (by decide)⟩

/-! # Claim C8 — out-of-range pollard during recovery -/

/-- Claim C8 counterexample: the history [append "s1" two bytes at offset 0,
pollard "s1" at pollardPos 7] has endOffset 2, so pollardPos 7 is out of
range; yet recovery consumes the whole file without error (it does not stop
at the pollard record) and the recovered stream's keepOffset is 7 — the
recovered span is the nonsensical [7, 2). -/
theorem recover_pollard_out_of_range_applied :
    recover 3 (runCommits freshLog [Action.app [115, 49] 0 [97, 98],
        Action.pol [115, 49] 2 7]).w.file =
      some (runCommits freshLog [Action.app [115, 49] 0 [97, 98],
        Action.pol [115, 49] 2 7],
        (runCommits freshLog [Action.app [115, 49] 0 [97, 98],
          Action.pol [115, 49] 2 7]).w.file, none) ∧
    streamRange (runCommits freshLog [Action.app [115, 49] 0 [97, 98],
        Action.pol [115, 49] 2 7]) [115, 49] =
      .ok { From := 7, To := 2 } := by
  decide

/-- Claim C8 (amended): `pollardAction.recover` performs no range check at
all. For a stream present in the state, replaying a pollard record sets the
stream's `keepOffset` to `pollardPos` unconditionally — even when
`pollardPos` exceeds the stream's end offset — and reports the record's 11
bytes as consumed, so the replay loop continues with the next record
rather than treating the record as corruption. -/
theorem pollard_recover_no_range_check (c : CommitLog) (offP p : Nat)
    (name : List Nat) (s : StreamLog)
    (h : lookupStream c name = some s)
    (_hout : (s.offset + s.length) % 2 ^ 64 < p) :
    (pollardActionRecover offP name p c).1.streams =
      setStream c.streams name { s with keepOffset := p } ∧
    (pollardActionRecover offP name p c).2 = 11 := by
  simp [pollardActionRecover, actionRecover, h]

/-- Witness for the amended C8 theorem: a one-append stream with end offset
2 receives an out-of-range pollard at 7. -/
theorem pollard_recover_no_range_check_witness :
    lookupStream (runCommits freshLog [Action.app [115, 49] 0 [97, 98]])
      [115, 49] = some ⟨0, 0, 0, 0, 0, 2⟩ ∧
    ((⟨0, 0, 0, 0, 0, 2⟩ : StreamLog).offset +
      (⟨0, 0, 0, 0, 0, 2⟩ : StreamLog).length) % 2 ^ 64 < 7 ∧
    ((pollardActionRecover 5 [115, 49] 7
        (runCommits freshLog [Action.app [115, 49] 0 [97, 98]])).1.streams =
      setStream (runCommits freshLog
        [Action.app [115, 49] 0 [97, 98]]).streams [115, 49]
        ⟨0, 0, 0, 0, 7, 2⟩ ∧
    (pollardActionRecover 5 [115, 49] 7
      (runCommits freshLog [Action.app [115, 49] 0 [97, 98]])).2 = 11) :=
  ⟨by decide, by decide,
    pollard_recover_no_range_check
      (runCommits freshLog [Action.app [115, 49] 0 [97, 98]]) 5 7
      [115, 49] ⟨0, 0, 0, 0, 0, 2⟩ (by decide) (by decide)⟩

/-! # Claim C3 — single-stream read returns the concatenation of appends -/

theorem get?_set_self {l : List FatEntry} {i : Nat} (e : FatEntry)
    (h : i < l.length) : (l.set i e).get? i = some e := by
  induction l generalizing i with
  | nil => simp at h
  | cons a r ih =>
    cases i with
    | zero => rfl
    | succ n =>
      simp only [List.set, List.get?]
      exact ih (by simpa using h)

theorem get?_set_other {l : List FatEntry} {i j : Nat} (e : FatEntry)
    (h : i ≠ j) : (l.set i e).get? j = l.get? j := by
  induction l generalizing i j with
  | nil => rfl
  | cons a r ih =>
    cases i with
    | zero =>
      cases j with
      | zero => exact absurd rfl h
      | succ m => rfl
    | succ n =>
      cases j with
      | zero => rfl
      | succ m =>
        simp only [List.set, List.get?]
        exact ih (fun hh => h (by rw [hh]))

theorem get?_append_left {l₁ l₂ : List FatEntry} {n : Nat}
    (h : n < l₁.length) : (l₁ ++ l₂).get? n = l₁.get? n := by
  induction l₁ generalizing n with
  | nil => simp at h
  | cons a r ih =>
    cases n with
    | zero => rfl
    | succ m =>
      simp only [List.cons_append, List.get?]
      exact ih (by simpa using h)

theorem get?_concat_self (l₁ l₂ : List FatEntry) (e : FatEntry) :
    (l₁ ++ e :: l₂).get? l₁.length = some e := by
  induction l₁ with
  | nil => rfl
  | cons a r ih => simpa using ih

theorem getD_of_get? {l : List FatEntry} {n : Nat} {e : FatEntry}
    (h : l.get? n = some e) : l.getD n default = e := by
  induction l generalizing n with
  | nil => simp [List.get?] at h
  | cons a r ih =>
    cases n with
    | zero =>
      simp only [List.get?] at h
      cases h
      rfl
    | succ m =>
      simp only [List.get?] at h
      simpa [List.getD] using ih h

theorem get?_lt {l : List FatEntry} {n : Nat} {e : FatEntry}
    (h : l.get? n = some e) : n < l.length := by
  by_contra hh
  rw [List.get?_eq_none.mpr (by omega)] at h
  cases h

theorem goSub64_self (a : Nat) : goSub64 a a = 0 := by
  simp [goSub64, wrap64, int64OfU64]

theorem readAt_mono {file : List Nat} (ext : List Nat) {p n : Nat}
    {d : List Nat} (h : readAt file p n = some d) :
    readAt (file ++ ext) p n = some d := by
  unfold readAt at h ⊢
  split at h
  · rename_i hc
    rw [if_pos ⟨hc.1, by simp only [List.length_append]; omega⟩]
    rw [← h]
    congr 1
    rw [List.drop_append_eq_append_drop,
      List.take_append_of_le_length (by simp only [List.length_drop]; omega)]
  · cases h

theorem readAt_concat (pre d : List Nat) :
    readAt (pre ++ d) pre.length d.length = some d := by
  unfold readAt
  rw [if_pos ⟨by positivity, by simp⟩]
  simp

theorem rsFill_step (file : List Nat) (fat : List FatEntry)
    (fu f done offset S : Nat) (acc d : List Nat) (nx p : Nat)
    (hd : 0 < d.length)
    (hget : fat.get? f = some ⟨nx, p, d.length⟩)
    (hread : readAt file p d.length = some d) :
    rsFill file fat (fu + 1) f (d.length + S) done offset offset acc =
      rsFill file fat fu nx S (done + d.length) (offset + d.length)
        (offset + d.length) (acc ++ d) := by
  rw [rsFill, if_neg (by omega), hget]
  simp only []
  rw [goSub64_self, Int.sub_zero,
    min_eq_left (by exact_mod_cast Nat.le_add_right d.length S),
    if_neg (not_lt.mpr (Int.natCast_nonneg _)), Int.add_zero,
    Int.toNat_natCast, hread]
  simp only []
  rw [Nat.add_sub_cancel_left]
theorem get?_append_at {l₁ l₂ : List FatEntry} {n : Nat} (e : FatEntry)
    (h : n = l₁.length) : (l₁ ++ e :: l₂).get? n = some e := by
  subst h
  exact get?_concat_self _ _ _

theorem ChainReads_head_le (fat : List FatEntry) (file : List Nat) :
    ∀ (items : List (Nat × List Nat)) (f : Nat),
    ChainReads fat file f items → ∀ x ∈ items, f ≤ x.1 := by
  intro items
  induction items with
  | nil => intro f h x hx; exact absurd hx (List.not_mem_nil x)
  | cons hd rest ih =>
    obtain ⟨i, d⟩ := hd
    intro f h x hx
    cases rest with
    | nil =>
      obtain ⟨hf, -, p, -, -⟩ := h
      subst hf
      rcases List.mem_singleton.mp hx with rfl
      exact le_rfl
    | cons y ys =>
      obtain ⟨hf, -, p, nx, hget, hrd, hlt, hnz, hrest⟩ := h
      subst hf
      rcases List.mem_cons.mp hx with rfl | hx'
      · exact le_rfl
      · exact le_of_lt (lt_of_lt_of_le hlt (ih nx hrest x hx'))

theorem ChainReads_mono_file (fat : List FatEntry) (file ext : List Nat) :
    ∀ (items : List (Nat × List Nat)) (f : Nat),
    ChainReads fat file f items → ChainReads fat (file ++ ext) f items := by
  intro items
  induction items with
  | nil => intro f h; exact False.elim h
  | cons hd rest ih =>
    obtain ⟨i, d⟩ := hd
    intro f h
    cases rest with
    | nil =>
      obtain ⟨hf, hpos, p, hget, hrd⟩ := h
      exact ⟨hf, hpos, p, hget, readAt_mono ext hrd⟩
    | cons y ys =>
      obtain ⟨hf, hpos, p, nx, hget, hrd, hlt, hnz, hrest⟩ := h
      exact ⟨hf, hpos, p, nx, hget, readAt_mono ext hrd, hlt, hnz,
        ih nx hrest⟩

theorem ChainReads_head_get (fat : List FatEntry) (file : List Nat)
    (items : List (Nat × List Nat)) (f : Nat)
    (h : ChainReads fat file f items) :
    ∃ e, fat.get? f = some e ∧ 0 < e.length := by
  cases items with
  | nil => exact False.elim h
  | cons hd rest =>
    obtain ⟨i, d⟩ := hd
    cases rest with
    | nil =>
      obtain ⟨hf, hdpos, p, hget, -⟩ := h
      subst hf
      exact ⟨_, hget, hdpos⟩
    | cons y ys =>
      obtain ⟨hf, hdpos, p, nx, hget, -⟩ := h
      subst hf
      exact ⟨_, hget, hdpos⟩

theorem ChainReads_extend (fat : List FatEntry) (file d : List Nat)
    (pnew : Nat) (hd : 0 < d.length)
    (hread : readAt file pnew d.length = some d) :
    ∀ (init : List (Nat × List Nat)) (f L : Nat) (dL : List Nat),
    ChainReads fat file f (init ++ [(L, dL)]) →
    ChainReads
      (setFat fat L { fat.getD L default with next := fat.length } ++
        [⟨0, pnew, d.length⟩]) file f
      ((init ++ [(L, dL)]) ++ [(fat.length, d)]) := by
  intro init
  induction init with
  | nil =>
    intro f L dL h
    obtain ⟨hf, hpos, p, hget, hrd⟩ := h
    subst hf
    have hL := get?_lt hget
    have hgd := getD_of_get? hget
    simp only [List.nil_append, List.singleton_append]
    refine ⟨rfl, hpos, p, fat.length, ?_, hrd, hL, by omega, ?_⟩
    · rw [get?_append_left (by rw [setFat, List.length_set]; exact hL)]
      rw [setFat, get?_set_self _ hL, hgd]
    · refine ⟨rfl, hd, pnew, ?_, hread⟩
      rw [get?_append_at _ (by rw [setFat, List.length_set])]
  | cons hd0 init0 ih =>
    obtain ⟨i0, d0⟩ := hd0
    intro f L dL h
    rw [List.cons_append] at h
    rcases hsplit : init0 ++ [(L, dL)] with _ | ⟨y, ys⟩
    · exact absurd hsplit (by simp)
    · rw [hsplit] at h
      obtain ⟨hf, hpos0, p0, nx0, hget0, hrd0, hlt0, hnz0, hrest⟩ := h
      rw [← hsplit] at hrest
      have hnxL : nx0 ≤ L := by
        have hm := ChainReads_head_le fat file _ _ hrest (L, dL) (by simp)
        simpa using hm
      have hi0 : i0 < fat.length := get?_lt hget0
      have hchain' := ih nx0 L dL hrest
      rw [List.cons_append, List.cons_append, hsplit, List.cons_append]
      refine ⟨hf, hpos0, p0, nx0, ?_, hrd0, hlt0, hnz0, ?_⟩
      · rw [get?_append_left (by rw [setFat, List.length_set]; exact hi0)]
        rw [setFat, get?_set_other _ (by omega)]
        exact hget0
      · rw [hsplit, List.cons_append] at hchain'
        exact hchain'

theorem rsFill_chain (fat : List FatEntry) (file : List Nat) :
    ∀ (items : List (Nat × List Nat)) (fuel f done offset : Nat)
      (acc : List Nat),
    ChainReads fat file f items → items.length < fuel →
    rsFill file fat fuel f (((items.map Prod.snd).map List.length).sum)
        done offset offset acc =
      .ret (done + ((items.map Prod.snd).map List.length).sum) none
        (acc ++ (items.map Prod.snd).flatten) := by
  intro items
  induction items with
  | nil => intro fuel f done offset acc h _; exact False.elim h
  | cons hd rest ih =>
    obtain ⟨i, d⟩ := hd
    intro fuel f done offset acc h hfuel
    obtain ⟨fu, rfl⟩ : ∃ fu, fuel = fu + 1 := ⟨fuel - 1, by omega⟩
    simp only [List.map_cons, List.sum_cons, List.flatten_cons]
    cases rest with
    | nil =>
      obtain ⟨hf, hdpos, p, hget, hrd⟩ := h
      subst hf
      simp only [List.map_nil, List.sum_nil, List.flatten_nil]
      rw [rsFill_step file fat fu f done offset _ acc d 0 p hdpos hget hrd]
      obtain ⟨fu', rfl⟩ : ∃ fu', fu = fu' + 1 :=
        ⟨fu - 1, by simp only [List.length_cons] at hfuel; omega⟩
      rw [rsFill, if_pos rfl]
      simp
    | cons y ys =>
      obtain ⟨hf, hdpos, p, nx, hget, hrd, hlt, hnz, hrest⟩ := h
      subst hf
      rw [rsFill_step file fat fu f done offset _ acc d nx p hdpos hget hrd]
      rw [ih fu nx (done + d.length) (offset + d.length) (acc ++ d) hrest
        (by simp only [List.length_cons] at hfuel ⊢; omega)]
      rw [Nat.add_assoc, List.append_assoc]
set_option maxHeartbeats 1000000 in
theorem SingleInv_step (name d : List Nat) (off : Nat) (c : CommitLog)
    (bytes : List Nat) (k : Nat) (hd : d ≠ []) (hkb : k < 2 ^ 16)
    (h : SingleInv name c bytes k) :
    SingleInv name (commit c (.app name off d)).1 (bytes ++ d) (k + 1) := by
  obtain ⟨hbud, hfin, hsync, s, init, L, dL, hl, hstr, hoff, hkeep, hlen,
    hlast, hbpos, hchain, hflat, hk, hfat⟩ := h
  have hdpos : 0 < d.length := List.length_pos.mpr hd
  have hlf : (c.streams.find? (fun p => p.1 = name)).map Prod.snd = some s := hl
  have h0' : (s.length = 0) = False := eq_false (by omega)
  have hmod : c.fat.length % 2 ^ 16 = c.fat.length :=
    Nat.mod_eq_of_lt (by omega)
  have hcom : commit c (.app name off d) =
      ({ streams := setStream c.streams name
           { s with lastFatIndex := c.fat.length,
                    length := s.length + d.length },
         w := ⟨c.w.file ++ (flagAppend % 256 ::
           (u16le s.number ++ (u32le d.length ++ d))), none⟩,
         size := c.size + (7 + d.length),
         fat := setFat c.fat s.lastFatIndex
             { c.fat.getD s.lastFatIndex default with
                 next := c.fat.length } ++ [⟨0, c.size + 7, d.length⟩],
         finalized := c.finalized }, none) := by
    simp only [commit, hfin, Bool.false_eq_true, if_false, appendActionWrite,
      actionWrite, lookupStream, hlf, Writer.write, hbud, Option.getD_some,
      Bool.not_true, fatExtend, if_true, h0', hmod]
    simp only [Prod.mk.injEq, CommitLog.mk.injEq, Writer.mk.injEq,
      FatEntry.mk.injEq, StreamLog.mk.injEq, List.cons_append,
      List.append_assoc, List.nil_append]
  rw [hcom]
  refine ⟨rfl, hfin, ?_, { s with lastFatIndex := c.fat.length, length := s.length + d.length }, init ++ [(L, dL)], c.fat.length, d, ?_, ?_, hoff, hkeep, ?_, rfl, ?_, ?_, ?_, ?_, ?_⟩
  · show c.size + (7 + d.length) = _
    simp only [List.length_append, List.length_cons, u16le, u32le,
      leBytes_length]
    omega
  · show lookupStream _ name = _
    have := lookupStream_setStream_self c.streams name
      { s with lastFatIndex := c.fat.length, length := s.length + d.length }
      ⟨c.w.file ++ (flagAppend % 256 ::
        (u16le s.number ++ (u32le d.length ++ d))), none⟩
      (c.size + (7 + d.length))
      (setFat c.fat s.lastFatIndex
          { c.fat.getD s.lastFatIndex default with next := c.fat.length }
        ++ [⟨0, c.size + 7, d.length⟩]) c.finalized
    exact this
  · show setStream c.streams name _ = _
    rw [hstr]
    simp [setStream]
  · show s.length + d.length = (bytes ++ d).length
    rw [hlen, List.length_append]
  · show 0 < (bytes ++ d).length
    simp only [List.length_append]
    omega
  · -- the extended chain
    show ChainReads _ _ s.firstFatIndex _
    rw [hlast]
    have hpre : (c.w.file ++ (flagAppend % 256 ::
        (u16le s.number ++ u32le d.length))).length = c.size + 7 := by
      simp only [List.length_append, List.length_cons, u16le, u32le,
        leBytes_length]
      omega
    have hread : readAt (c.w.file ++ (flagAppend % 256 ::
        (u16le s.number ++ (u32le d.length ++ d)))) (c.size + 7) d.length =
        some d := by
      have hra := readAt_concat (c.w.file ++ (flagAppend % 256 ::
        (u16le s.number ++ u32le d.length))) d
      rw [hpre] at hra
      rw [show c.w.file ++ (flagAppend % 256 ::
          (u16le s.number ++ (u32le d.length ++ d))) =
        (c.w.file ++ (flagAppend % 256 ::
          (u16le s.number ++ u32le d.length))) ++ d from by
        simp [List.append_assoc]]
      exact hra
    have hext := ChainReads_mono_file c.fat c.w.file
      (flagAppend % 256 :: (u16le s.number ++ (u32le d.length ++ d)))
      _ _ hchain
    exact ChainReads_extend c.fat _ d (c.size + 7) hdpos hread init
      s.firstFatIndex L dL hext
  · show ((_ ++ [(c.fat.length, d)]).map Prod.snd).flatten = bytes ++ d
    rw [List.map_append, List.flatten_append, hflat]
    simp
  · show (_ ++ [(c.fat.length, d)]).length = k + 1
    rw [List.length_append, hk]
    rfl
  · show (setFat c.fat s.lastFatIndex _ ++ _).length = k + 1
    rw [List.length_append, setFat, List.length_set, hfat]
    rfl
set_option maxHeartbeats 1000000 in
theorem SingleInv_base (name d : List Nat) (hd : d ≠ []) :
    SingleInv name (commit freshLog (.app name 0 d)).1 d 1 := by
  have hdpos : 0 < d.length := List.length_pos.mpr hd
  have hcom : commit freshLog (.app name 0 d) =
      ({ streams := setStream (setStream [] name ⟨0, 0, 0, 0, 0, 0⟩) name
           ⟨0, 0, 0, 0, 0, d.length⟩,
         w := ⟨(flagAppend ||| flagWithName) % 256 ::
           (u64le 0 ++ (name ++ (0 :: (u32le d.length ++ d)))), none⟩,
         size := 9 + name.length + 1 + 4 + d.length,
         fat := [⟨0, 9 + name.length + 1 + 4, d.length⟩],
         finalized := false }, none) := by
    simp only [commit, freshLog, Bool.false_eq_true, if_false,
      appendActionWrite, actionWrite, lookupStream, List.find?_nil,
      Option.map_none', Writer.write, Bool.not_true, fatExtend,
      find?_setStream, Option.map_some', Option.getD_some, if_true,
      List.length_nil, Nat.zero_add, List.nil_append, eq_self_iff_true]
    simp only [Prod.mk.injEq, CommitLog.mk.injEq, Writer.mk.injEq,
      FatEntry.mk.injEq, StreamLog.mk.injEq, List.cons_append,
      List.append_assoc, List.nil_append]
    all_goals and_intros <;> first | rfl | trivial
  rw [hcom]
  refine ⟨rfl, rfl, ?_, ⟨0, 0, 0, 0, 0, d.length⟩, [], 0, d, ?_, ?_, rfl,
    rfl, rfl, rfl, hdpos, ?_, ?_, rfl, rfl⟩
  · show 9 + name.length + 1 + 4 + d.length = _
    simp only [List.length_cons, List.length_append, u64le, u32le,
      leBytes_length]
    omega
  · exact lookupStream_setStream_self _ _ _ _ _ _ _
  · show setStream (setStream [] name _) name _ = _
    simp [setStream]
  · -- the singleton chain
    refine ⟨rfl, hdpos, 9 + name.length + 1 + 4, rfl, ?_⟩
    have hra := readAt_concat ((flagAppend ||| flagWithName) % 256 ::
      (u64le 0 ++ (name ++ (0 :: u32le d.length)))) d
    have hpre : ((flagAppend ||| flagWithName) % 256 ::
        (u64le 0 ++ (name ++ (0 :: u32le d.length)))).length =
        9 + name.length + 1 + 4 := by
      simp only [List.length_cons, List.length_append, u64le, u32le,
        leBytes_length]
      omega
    rw [hpre] at hra
    rw [show (flagAppend ||| flagWithName) % 256 ::
        (u64le 0 ++ (name ++ (0 :: (u32le d.length ++ d)))) =
      ((flagAppend ||| flagWithName) % 256 ::
        (u64le 0 ++ (name ++ (0 :: u32le d.length)))) ++ d from by
      simp [List.append_assoc]]
    exact hra
  · show (([] ++ [(0, d)]).map Prod.snd).flatten = d
    simp

theorem SingleInv_run (name : List Nat) :
    ∀ (ds : List (List Nat)) (c : CommitLog) (bytes : List Nat) (k T : Nat),
    (∀ x ∈ ds, x ≠ []) → k + ds.length < 2 ^ 16 → SingleInv name c bytes k →
    SingleInv name (runCommits c (appendsFrom name T ds))
      (bytes ++ ds.flatten) (k + ds.length) := by
  intro ds
  induction ds with
  | nil =>
    intro c bytes k T hne hb h
    simp only [List.flatten_nil, List.append_nil, List.length_nil,
      Nat.add_zero]
    exact h
  | cons d rest ih =>
    intro c bytes k T hne hb h
    rw [show appendsFrom name T (d :: rest) =
      .app name T d :: appendsFrom name (T + d.length) rest from rfl,
      runCommits_cons]
    have h1 := SingleInv_step name d T c bytes k (hne d (by simp))
      (by simp only [List.length_cons] at hb; omega) h
    have h2 := ih (commit c (.app name T d)).1 (bytes ++ d) (k + 1)
      (T + d.length) (fun x hx => hne x (by simp [hx]))
      (by simp only [List.length_cons] at hb ⊢; omega) h1
    rw [List.flatten_cons, ← List.append_assoc]
    simp only [List.length_cons]
    rw [show k + (rest.length + 1) = k + 1 + rest.length from by omega]
    exact h2

/-- Claim C3 (amended): after any nonempty sequence of appends of nonempty
payloads to a single stream `s` at contiguous offsets starting at 0 (fewer
than `2^16` of them, so the 16-bit FAT indices do not wrap), `readStream(s,
0, buf of endOffset bytes)` succeeds and fills the buffer with the
concatenation of all appended payloads in append order; each FAT extent's
`pos` points at the file position where that append's payload landed, which
the positioned reads against the real file contents verify. An appended
empty payload breaks the claim: see the counterexample. -/
theorem single_stream_reads_concatenation (name : List Nat)
    (ds : List (List Nat)) (fuel : Nat) (hne : ∀ d ∈ ds, d ≠ [])
    (hds : ds ≠ []) (hcnt : ds.length < 2 ^ 16) (hfuel : ds.length < fuel) :
    readStream (runCommits freshLog (appendsFrom name 0 ds)) name 0
      ds.flatten.length fuel =
      .ret ds.flatten.length none ds.flatten := by
  obtain ⟨d0, rest, rfl⟩ : ∃ d0 rest, ds = d0 :: rest := by
    cases ds with
    | nil => exact absurd rfl hds
    | cons a b => exact ⟨a, b, rfl⟩
  have hbase := SingleInv_base name d0 (hne d0 (by simp))
  have hrun := SingleInv_run name rest (commit freshLog (.app name 0 d0)).1
    d0 1 (0 + d0.length) (fun x hx => hne x (by simp [hx]))
    (by simp only [List.length_cons] at hcnt; omega) hbase
  rw [show appendsFrom name 0 (d0 :: rest) =
    .app name 0 d0 :: appendsFrom name (0 + d0.length) rest from rfl,
    runCommits_cons]
  obtain ⟨hbud, hfin, hsync, s, init, L, dL, hl, hstr, hoff, hkeep, hlen,
    hlast, hbpos, hchain, hflat, hk, hfat⟩ := hrun
  rw [List.flatten_cons]
  rw [readStream, hl]
  simp only []
  rw [if_neg (by rw [hkeep, hoff, hlen]; simp)]
  obtain ⟨fu, rfl⟩ : ∃ fu, fuel = fu + 1 := ⟨fuel - 1, by omega⟩
  obtain ⟨e, hget, hepos⟩ := ChainReads_head_get _ _ _ _ hchain
  have hskip : rsSkip (runCommits (commit freshLog (.app name 0 d0)).1
      (appendsFrom name (0 + d0.length) rest)).fat 0 (fu + 1)
      s.firstFatIndex 0 = .found s.firstFatIndex 0 := by
    rw [rsSkip, hget]
    simp only []
    rw [if_neg (by omega)]
  rw [hoff, hskip]
  simp only []
  have hsum : (((init ++ [(L, dL)]).map Prod.snd).map List.length).sum =
      (d0 ++ rest.flatten).length := by
    rw [← List.length_flatten, hflat]
  have hfill := rsFill_chain _ _ (init ++ [(L, dL)]) (fu + 1)
    s.firstFatIndex 0 0 [] hchain
    (by rw [hk]; simp only [List.length_cons] at hfuel; omega)
  rw [hsum] at hfill
  rw [hfill, hflat]
  simp

/-- Claim C3 counterexample: appending a single empty payload leaves the
stream's FAT chain ending in a zero-length extent; `readStream(s, 0, buf
of endOffset = 0 bytes)` then panics ("Oooops") in the extent-skipping
loop instead of succeeding with the empty concatenation. -/
theorem readStream_empty_append_panics :
    readStream (runCommits freshLog [Action.app [115, 49] 0 []]) [115, 49]
      0 0 5 = .panicked := by
  decide

/-- Witness for the amended C3 theorem: two appends of "Hi" and "!" read
back as "Hi!". -/
theorem single_stream_reads_concatenation_witness :
    (∀ d ∈ [[72, 105], [33]], d ≠ ([] : List Nat)) ∧
    ([[72, 105], [33]] : List (List Nat)) ≠ [] ∧
    ([[72, 105], [33]] : List (List Nat)).length < 2 ^ 16 ∧
    ([[72, 105], [33]] : List (List Nat)).length < 4 ∧
    readStream
      (runCommits freshLog (appendsFrom [115, 49] 0 [[72, 105], [33]]))
      [115, 49] 0 ([[72, 105], [33]] : List (List Nat)).flatten.length 4 =
      .ret ([[72, 105], [33]] : List (List Nat)).flatten.length none
        ([[72, 105], [33]] : List (List Nat)).flatten :=
  ⟨by decide, by decide, by decide, by decide,
    single_stream_reads_concatenation [115, 49] [[72, 105], [33]] 4
      (by decide) (by decide) (by decide) (by decide)⟩
